import Mathlib

/-!
Verification of the split-value voting prototype (`ron-rivest/split-value-voting`).

This file gives a shallow embedding, in Lean 4, of the arithmetic and
protocol core of the split-value voting prototype (files `sv.py`,
`sv_voter.py`, `sv_server.py`, `sv_tally.py`, `sv_prover.py`,
`sv_verifier.py`, `sv_sbb.py`, `sv_election.py`), together with proofs and
refutations of the specification claims about that code.

Conventions used throughout the embedding:

* Python integers are unbounded, so they are modelled by `ℤ` (and `ℕ` for
  counts and indices).  Python's `%` on a positive modulus returns the
  least nonnegative residue; it is modelled by `pymod` below.
* Python `assert` statements inside functions whose result the claims talk
  about are modelled by returning `Except String _` (the `error` case is a
  raised `AssertionError`); asserts that are pure preconditions of a
  function are modelled as hypotheses of the theorems about it.
* Randomness: `sv.get_random_from_source` deterministically draws
  successive values from a named source.  Functions that consume such
  draws are parametrised by the sequence of drawn values (a `List ℤ`, or a
  stream `ℕ → ℕ` with an explicit offset when two functions must be
  compared draw-by-draw).  The claims proved here hold for every value of
  the draws.
* Python lists indexed by the voter positions `p0, p1, ...` are modelled
  by functions out of `Fin nVoters` (the code's legend: "Indices between 0
  and n_voters-1 indicated by p0, p1, ...").
-/

deriving instance DecidableEq for Except

namespace SV
/-- Python's `a % M` for a positive modulus `M`: the least nonnegative
residue of `a` modulo `M` (Python's `%` is a floored modulus, so for
`M > 0` the result is always in `[0, M)`, whatever the sign of `a`). -/
def pymod (a M : ℤ) : ℤ := (a % M + M) % M

/-! ## Polynomial secret sharing (`sv.share`, `sv.py` lines 460-483)

`share(secret, n, t, rand_name, M)` draws `t` values `coefs[0..t-1]` from
the named source (each already reduced mod `M`), overwrites `coefs[0]`
with `secret`, and returns `[(x, P(x) mod M) for x in 1..n]`, evaluating
the polynomial by Horner's rule with a reduction mod `M` at each step.
The draws are the parameter `draws` here (so `coefs = secret ::
draws.tail` when `draws.length = t`).  `share`'s `assert` statements
(`M > 1`, `0 ≤ secret < M`, `1 < n ≤ M - 1`, `1 ≤ t ≤ n`,) are
preconditions and appear as hypotheses of the theorems below. -/

/-- Horner evaluation from `sv.share`:
`y = 0; for j in range(t-1, -1, -1): y = ((y * x) + coefs[j]) % M`. -/
def polyEvalHorner (coefs : List ℤ) (x M : ℤ) : ℤ :=
  coefs.foldr (fun c y => pymod (y * x + c) M) 0

/-- `sv.share`: the list `[(x, P(x) mod M) for x in range(1, n+1)]` where
`P` has coefficient list `secret :: draws.tail` (the source draws `t`
values and then overwrites the constant coefficient with the secret). -/
def share (secret : ℤ) (n t : ℕ) (draws : List ℤ) (M : ℤ) : List (ℤ × ℤ) :=
  (List.range n).map fun (i : ℕ) =>
    (((i : ℤ) + 1), polyEvalHorner (secret :: draws.tail) ((i : ℤ) + 1) M)

/-! ## Lagrange reconstruction (`sv.lagrange`, `sv.py` lines 495-527)

`lagrange(share_list, n, t, M)` asserts `1 ≤ t ≤ n`, `n ≤ M - 1` and
`len(share_list) ≥ t`, truncates the share list to its first `t` entries,
and for each `i < t` accumulates
`secret = (secret + y[i] * numerator * denominator_inverse) % M`, where
`numerator = prod over j ≠ i of ((-x[j]) % M)` (an exact integer product),
`denominator = prod over j ≠ i of ((x[i]-x[j]) % M)` (exact product,
asserted nonzero), and `denominator_inverse = pow(denominator, M-2, M)`
(asserted to be a modular inverse).  The asserts inside the loop are
modelled by `Except.error`. -/

/-- The integer product `numerator` of `sv.lagrange` for index `i`
(accumulated over `j in range(t)`, `j ≠ i`, starting from `1`). -/
def lagNumer (xs : List ℤ) (t : ℕ) (i : ℕ) (M : ℤ) : ℤ :=
  ((List.range t).filter (fun j => j ≠ i)).foldl
    (fun acc j => acc * pymod (-(xs.getD j 0)) M) 1

/-- The integer product `denominator` of `sv.lagrange` for index `i`. -/
def lagDenom (xs : List ℤ) (t : ℕ) (i : ℕ) (M : ℤ) : ℤ :=
  ((List.range t).filter (fun j => j ≠ i)).foldl
    (fun acc j => acc * pymod (xs.getD i 0 - xs.getD j 0) M) 1

/-- The loop body of `sv.lagrange` over the index list `range t`,
accumulating `secret` and raising on the two inner asserts. -/
def lagrangeFold (xs ys : List ℤ) (t : ℕ) (M : ℤ) :
    List ℕ → ℤ → Except String ℤ
  | [], acc => .ok acc
  | i :: is, acc =>
      let nu := lagNumer xs t i M
      let de := lagDenom xs t i M
      if de = 0 then .error "lagrange: assert denominator != 0"
      else
        let dinv := pymod (de ^ (M - 2).toNat) M
        if pymod (de * dinv) M = 1 then
          lagrangeFold xs ys t M is (pymod (acc + ys.getD i 0 * nu * dinv) M)
        else .error "lagrange: assert (denominator * denominator_inverse) % M == 1"

/-- `sv.lagrange`. -/
def lagrange (shareList : List (ℤ × ℤ)) (n t : ℕ) (M : ℤ) :
    Except String ℤ :=
  if 1 ≤ t ∧ t ≤ n ∧ (n : ℤ) ≤ M - 1 ∧ t ≤ shareList.length then
    let sl := shareList.take t
    lagrangeFold (sl.map Prod.fst) (sl.map Prod.snd) t M (List.range t) 0
  else .error "lagrange: assert parameters"

/-! ## Bridging the integer-level code to `ZMod p`

`race_modulus` is prime, so all the modular arithmetic of the source maps
into the field `ZMod p`.  The lemmas of this section relate the integer
folds of the embedded `share`/`lagrange` to sums and products in
`ZMod p`, and establish the Lagrange interpolation identity that the
correctness claims rest on. -/

/-- The polynomial with (low-to-high) coefficient list `l`. -/
noncomputable def ofCoeffList {p : ℕ} (l : List (ZMod p)) : Polynomial (ZMod p) :=
  l.foldr (fun c q => Polynomial.C c + Polynomial.X * q) 0

/-- The Lagrange weight at node `i` (evaluation of the `i`-th Lagrange
basis polynomial at `0`): this is what one loop iteration of
`sv.lagrange` contributes, `(prod of -x_j) * (prod of (x_i - x_j))⁻¹`. -/
noncomputable def lamW (p t : ℕ) (node : ℕ → ZMod p) (i : ℕ) : ZMod p :=
  (∏ j ∈ (Finset.range t).erase i, -(node j)) *
    (∏ j ∈ (Finset.range t).erase i, (node i - node j))⁻¹

/-! ## The mix-server array (`Server.mix`, `sv_server.py` lines 152-217)

Per race, column `j` and pass `k`, `Server.mix` draws one permutation
`pi` (shared by all rows of the column) and, per voter position, one
fresh sharing `share(0, rows, threshold, ..., race_modulus)` whose row-`i`
component is `fuzz_list[i][position]`.  The column step for row `i` is
`xp = apply_permutation(pi, x)` (i.e. `xp[m] = x[pi[m]]`) followed by
`y[m] = (xp[m] + fuzz_list[m]) % race_modulus`, and column `j`'s `y`
becomes column `j+1`'s `x`.  Permutations produced by
`sv.random_permutation` are bijections of the position set and are
modelled by `Equiv.Perm (Fin nv)`; the per-position fuzz draws are the
parameter `fdraws`.  (In this revision the column-0 data is held in
int-indexed lists while `p_list` names positions `p0, p1, ...`; positions
are modelled uniformly by `Fin nv`.) -/

/-- `sv.apply_permutation`: `y[elt] = x[perm[elt]]`. -/
def applyPermutation {nv : ℕ} (pi : Equiv.Perm (Fin nv)) (x : Fin nv → ℤ) :
    Fin nv → ℤ :=
  fun e => x (pi e)

/-- Row `i`'s fuzz value at one position: `share_list[row][1]` of a fresh
`share(0, rows, threshold, rand_name, M)` (`sv_server.py` lines 183-196). -/
def fuzzVal (rows t : ℕ) (draws : List ℤ) (M : ℤ) (i : ℕ) : ℤ :=
  ((share 0 rows t draws M).getD i (0, 0)).2

/-- One column step of `Server.mix` (shuffle then obfuscate), as a
function of the row index `i` and position `m`. -/
def mixStep {nv : ℕ} (rows t : ℕ) (M : ℤ) (x : ℕ → Fin nv → ℤ)
    (pi : Equiv.Perm (Fin nv)) (fdraws : Fin nv → List ℤ) :
    ℕ → Fin nv → ℤ :=
  fun i m => pymod (applyPermutation pi (x i) m + fuzzVal rows t (fdraws m) M i) M

/-- The whole pass: columns processed left to right, each column's `y`
becoming the next column's `x`. -/
def mixPass {nv : ℕ} (rows t : ℕ) (M : ℤ)
    (cols : List (Equiv.Perm (Fin nv) × (Fin nv → List ℤ)))
    (x0 : ℕ → Fin nv → ℤ) : ℕ → Fin nv → ℤ :=
  cols.foldl (fun x c => mixStep rows t M x c.1 c.2) x0

/-- Position tracing of `compute_and_post_t_values` (`sv_prover.py` lines
152-156): `py = px; for j in range(cols): py = pi_inv[py]`. -/
def tracePos {nv : ℕ} (cols : List (Equiv.Perm (Fin nv) × (Fin nv → List ℤ)))
    (px : Fin nv) : Fin nv :=
  cols.foldl (fun pcur c => c.1.symm pcur) px

/-- The share list `[(i+1, f i) for i in range(rows)]` (built both by
`sv_tally.compute_tally` and by the verifier's `enumerate(..., 1)`). -/
def enumShares (rows : ℕ) (f : ℕ → ℤ) : List (ℤ × ℤ) :=
  (List.range rows).map fun (i : ℕ) => ((i : ℤ) + 1, f i)

/-- The standard nodes `i + 1` used by row-indexed share lists. -/
def stdNode (p : ℕ) : ℕ → ZMod p := fun j => (((j : ℤ) + 1 : ℤ) : ZMod p)

/-! ## Claim C5: `compute_tally` (`sv_tally.py` lines 40-76)

For each race and pass `k`, `compute_tally` builds, per position, the
share list `[(row+1, y) for row, i in enumerate(row_list)]` and calls
`lagrange(share_list, election.n_voters, server.threshold,
race.race_modulus)` — note `n_voters`, not `rows`, as the `n` parameter —
then decodes via `race.choice_int2str` (minimal little-endian bytes,
`bytes.decode()`, `assert is_valid_choice`), sorts each pass's list of
choice strings, asserts each pass's sorted list equals the first pass's,
and counts into a dict seeded with `0` for every non-write-in choice.
Python strings are modelled by their UTF-8 byte lists: UTF-8 encoding is
injective and byte-lexicographic order agrees with Python's code-point
string order, so sorting, equality and counting are preserved. -/

/-- Exception-propagating map — the Python `for` loop building a list,
where any raised assert aborts the whole computation. -/
def mapE {α β : Type} (f : α → Except String β) : List α → Except String (List β)
  | [] => .ok []
  | a :: as =>
    match f a with
    | .error e => .error e
    | .ok b =>
      match mapE f as with
      | .error e => .error e
      | .ok bs => .ok (b :: bs)

/-- `sv.int2bytes` with `desired_length=None`: minimal little-endian
byte list (`0` is one zero byte).  The loop `while x > 0: append(x % 256);
x //= 256` is given the fuel `x`, which suffices since `x // 256 < x`. -/
def int2bytesAux : ℕ → ℕ → List ℕ
  | 0, _ => []
  | fuel + 1, x => if x = 0 then [] else x % 256 :: int2bytesAux fuel (x / 256)

/-- `sv.int2bytes` (no desired length). -/
def int2bytes (x : ℕ) : List ℕ := if x = 0 then [0] else int2bytesAux x x

/-- A UTF-8 continuation byte. -/
def utf8Cont (b : ℕ) : Bool := 128 ≤ b && b ≤ 191

/-- Well-formed UTF-8 (what Python's strict `bytes.decode()` accepts):
ASCII, 2-byte `C2..DF`, 3-byte `E0/E1..EC/ED/EE..EF` (excluding overlong
forms and surrogates), 4-byte `F0/F1..F3/F4` (up to `U+10FFFF`). -/
def utf8Valid : List ℕ → Bool
  | [] => true
  | b :: rest =>
    if b ≤ 0x7F then utf8Valid rest
    else if 0xC2 ≤ b && b ≤ 0xDF then
      match rest with
      | c1 :: r => utf8Cont c1 && utf8Valid r
      | [] => false
    else if b = 0xE0 then
      match rest with
      | c1 :: c2 :: r => (0xA0 ≤ c1 && c1 ≤ 0xBF) && utf8Cont c2 && utf8Valid r
      | _ => false
    else if (0xE1 ≤ b && b ≤ 0xEC) || b = 0xEE || b = 0xEF then
      match rest with
      | c1 :: c2 :: r => utf8Cont c1 && utf8Cont c2 && utf8Valid r
      | _ => false
    else if b = 0xED then
      match rest with
      | c1 :: c2 :: r => (0x80 ≤ c1 && c1 ≤ 0x9F) && utf8Cont c2 && utf8Valid r
      | _ => false
    else if b = 0xF0 then
      match rest with
      | c1 :: c2 :: c3 :: r =>
          (0x90 ≤ c1 && c1 ≤ 0xBF) && utf8Cont c2 && utf8Cont c3 && utf8Valid r
      | _ => false
    else if 0xF1 ≤ b && b ≤ 0xF3 then
      match rest with
      | c1 :: c2 :: c3 :: r =>
          utf8Cont c1 && utf8Cont c2 && utf8Cont c3 && utf8Valid r
      | _ => false
    else if b = 0xF4 then
      match rest with
      | c1 :: c2 :: c3 :: r =>
          (0x80 ≤ c1 && c1 ≤ 0x8F) && utf8Cont c2 && utf8Cont c3 && utf8Valid r
      | _ => false
    else false

/-- `Race.is_valid_choice` at the byte level (`sv_race.py` lines 88-97):
the choice is listed, or some all-stars choice (write-in slot, `42` is
`*`) is at least as long. -/
def isValidChoiceB (choices : List (List ℕ)) (cb : List ℕ) : Bool :=
  choices.contains cb
    || choices.any (fun vc => vc.all (fun c => c = 42) && cb.length ≤ vc.length)

/-- `Race.choice_int2str` at the byte level (`sv_race.py` lines 107-114):
assert `0 ≤ w < race_modulus`, take minimal little-endian bytes, decode
(UTF-8, strict) and assert `is_valid_choice`. -/
def choiceInt2Bytes (choices : List (List ℕ)) (M : ℤ) (w : ℤ) :
    Except String (List ℕ) :=
  if 0 ≤ w ∧ w < M then
    let cb := int2bytes w.toNat
    if utf8Valid cb then
      if isValidChoiceB choices cb then .ok cb
      else .error "choice_int2str: assert is_valid_choice"
    else .error "choice_int2str: UnicodeDecodeError"
  else .error "choice_int2str: assert range"

/-- Byte-lexicographic order (agrees with Python's string comparison via
UTF-8). -/
def lexLe : List ℕ → List ℕ → Bool
  | [], _ => true
  | _ :: _, [] => false
  | a :: as, b :: bs => if a < b then true else if b < a then false else lexLe as bs

def insertSorted (x : List ℕ) : List (List ℕ) → List (List ℕ)
  | [] => [x]
  | y :: ys => if lexLe x y then x :: y :: ys else y :: insertSorted x ys

/-- Python's `sorted` (any stable comparison sort; only the resulting
order matters). -/
def sortB : List (List ℕ) → List (List ℕ)
  | [] => []
  | x :: xs => insertSorted x (sortB xs)

/-- One `tally[choice_str] = tally.get(choice_str, 0) + 1` step on the
tally modelled as an insertion-ordered association list (Python dict). -/
def bumpCount : List (List ℕ × ℕ) → List ℕ → List (List ℕ × ℕ)
  | [], s => [(s, 1)]
  | (c, k) :: rest, s =>
      if c = s then (c, k + 1) :: rest else (c, k) :: bumpCount rest s

/-- The per-race tally: `0` for every non-write-in choice, then one
increment per decoded choice string. -/
def countTally (choices : List (List ℕ)) (strs : List (List ℕ)) :
    List (List ℕ × ℕ) :=
  strs.foldl bumpCount
    ((choices.filter (fun c => !(c.all (fun ch => ch = 42)))).map (fun c => (c, 0)))

/-- `compute_tally`'s per-position reconstruction: the source passes
`election.n_voters` — not `rows` — as the `n` parameter of `lagrange`
(`sv_tally.py` line 57). -/
def reconstructChoice (rows nVoters threshold : ℕ) (M : ℤ) (y : ℕ → ℤ) :
    Except String ℤ :=
  lagrange (enumShares rows y) nVoters threshold M

/-- The reconstruction as claim C5 words it: `lagrange(., rows,
threshold, M)` with `n = rows`.  Stated only to be compared with
`reconstructChoice`. -/
def reconstructChoice_claimed (rows nVoters threshold : ℕ) (M : ℤ) (y : ℕ → ℤ) :
    Except String ℤ :=
  lagrange (enumShares rows y) rows threshold M

/-- One pass of `compute_tally`: reconstruct every position, then decode
every reconstructed integer. -/
def passChoiceBytes {β : Type} (pList : List β) (yk : ℕ → β → ℤ)
    (rows nV t : ℕ) (M : ℤ) (choices : List (List ℕ)) :
    Except String (List (List ℕ)) :=
  match mapE (fun pos => reconstructChoice rows nV t M (fun row => yk row pos)) pList with
  | .error e => .error e
  | .ok ints => mapE (choiceInt2Bytes choices M) ints

/-- `sv_tally.compute_tally` for one race: per pass, reconstruct,
decode and sort; assert every pass's sorted list equals the first
pass's; count the final list into the per-race tally. -/
def computeTallyRace {α β : Type} (kList : List α) (pList : List β)
    (y : α → ℕ → β → ℤ) (rows nV t : ℕ) (M : ℤ) (choices : List (List ℕ)) :
    Except String (List (List ℕ × ℕ)) :=
  match mapE (fun k =>
      match passChoiceBytes pList (y k) rows nV t M choices with
      | .error e => .error e
      | .ok strs => .ok (sortB strs)) kList with
  | .error e => .error e
  | .ok [] => .error "compute_tally: no passes"
  | .ok (first :: rest) =>
      if rest.all (fun l => l == first) then .ok (countTally choices first)
      else .error "compute_tally: assert choice_str_list == last_choice_str_list"

/-! ## Hex encoding, commitment keys and ballot ids (claims C6 and C9)

`sv.get_random_from_source` (no modulus) returns
`SECPARAM_RAND_SEED / 8 = 32` bytes.  Python strings are modelled as
lists of characters. -/

/-- `sv.SECPARAM_SYMMETRIC`. -/
def SECPARAM_SYMMETRIC : ℕ := 256

/-- The digit table of `sv.bytes2hex`. -/
def hexdigit (n : ℕ) : Char :=
  if n < 10 then Char.ofNat (48 + n) else Char.ofNat (87 + n)

def hexdigits : List Char := (List.range 16).map hexdigit

/-- `sv.bytes2hex`: for each byte `c`, append `hexdigits[c >> 4]` and
`hexdigits[c & 0xf]`. -/
def bytes2hex : List ℕ → List Char
  | [] => []
  | c :: rest => hexdigits.getD (c / 16) '0' :: hexdigits.getD (c % 16) '0'
      :: bytes2hex rest

/-- `com`'s key-length assertion (`sv.py` lines 666-668):
`assert len(r_b64) == SECPARAM_SYMMETRIC // 6 + 2`. -/
def comKeyLenOk (r : List Char) : Bool := r.length == SECPARAM_SYMMETRIC / 6 + 2

/-- The commitment randomness `Voter.cast_votes` builds (`sv_voter.py`
lines 96-97): `ru = sv.bytes2hex(sv.get_random_from_source(rand_name))`
— a hex encoding of the 32-byte draw, not a base64 one. -/
def voterCommitKey (draw : List ℕ) : List Char := bytes2hex draw

/-- `Voter.cast_votes`'s ballot id (`sv_voter.py` lines 76-78):
`bytes2hex` of one 32-byte draw, truncated to `ballot_id_len`. -/
def ballotId (draw : List ℕ) (ballotIdLen : ℕ) : List Char :=
  (bytes2hex draw).take ballotIdLen

/-- The assertion after it (`sv_voter.py` line 79):
`assert len(ballot_id) == self.election.ballot_id_len`. -/
def ballotIdAssertOk (draw : List ℕ) (ballotIdLen : ℕ) : Bool :=
  (ballotId draw ballotIdLen).length == ballotIdLen

/-- `Election.__init__`'s only check on `ballot_id_len`
(`sv_election.py` line 115): `assert ballot_id_len > 0`. -/
def electionBallotIdLenOk (ballotIdLen : ℕ) : Bool := 0 < ballotIdLen

/-! ## The secure bulletin board (`sv_sbb.py`, claims C10 and C8)

`SBB.post(msg_header, msg_dict, time_stamp)` asserts the board is not
closed and that `msg_dict` has no `time`/`time_str` key, optionally adds
`msg_dict['time_iso8601'] = time.strftime(...)` (the wall-clock reading,
the parameter `now` here), and appends the single new entry to
`self.board`.  `SBB.close()` posts `sbb:close` and then sets the closed
flag.  A failed assert raises, leaving the board unchanged (the append
is after all asserts), which the `Except` embedding reflects by
returning no new state.  Payload values are modelled by the flat `JVal`
(the entries these claims exercise hold strings and integers). -/

/-- A JSON payload value (string or integer). -/
inductive JVal where
  | s (v : String)
  | n (v : ℤ)
deriving DecidableEq

/-- The SBB state: the board of `[header, msg_dict]` entries and the
closed flag. -/
structure SBBState where
  board : List (String × List (String × JVal))
  closed : Bool
deriving DecidableEq

/-- `SBB.post` (`sv_sbb.py` lines 64-90). -/
def SBBState.post (sbb : SBBState) (header : String)
    (payload : List (String × JVal)) (timeStamp : Bool) (now : String) :
    Except String SBBState :=
  if sbb.closed then .error "post: assert not self.closed"
  else if payload.any (fun f => f.1 == "time" || f.1 == "time_str") then
    .error "post: assert time not in msg_dict"
  else
    .ok { board := sbb.board ++ [(header,
            if timeStamp then payload ++ [("time_iso8601", .s now)] else payload)],
          closed := sbb.closed }

/-- `SBB.close` (`sv_sbb.py` lines 59-62). -/
def SBBState.close (sbb : SBBState) (now : String) : Except String SBBState :=
  match sbb.post "sbb:close" [] true now with
  | .error e => .error e
  | .ok s => .ok { s with closed := true }

/-! ## Claim C8: is the SBB transcript byte-identical across runs?

A run of the election posts a fixed sequence of entries; given identical
parameters and identical named-randomness-source seeds, every posted
header and payload is the same deterministic function of those inputs
(`sv.get_random_from_source` only hashes its own state), but
`SBB.post(..., time_stamp=True)` additionally stores
`time.strftime("%Y-%m-%dT%H:%M:%S%z")` — the wall clock — in the entry.
A run is therefore modelled as a fold of the post sequence with the
clock readings as an explicit input stream. -/

/-- A run of the posting pipeline: perform the `(header, payload,
time_stamp)` post calls in order, reading the `i`-th clock value for the
`i`-th call. -/
def runPosts (clock : ℕ → String) :
    SBBState → List (String × List (String × JVal) × Bool) → ℕ →
    Except String SBBState
  | sbb, [], _ => .ok sbb
  | sbb, (h, pl, ts) :: rest, i =>
    match sbb.post h pl ts (clock i) with
    | .error e => .error e
    | .ok s => runPosts clock s rest (i + 1)

/-- Modelled from the spec: `sv.dumps`/`sv.dump` (referenced by
`sv_sbb.SBB.print_sbb`/`hash_sbb` but absent from this revision's
`sv.py`) — the canonical JSON serialization of the board: an array of
`[header, payload]` pairs, object keys sorted lexicographically
(spec §6, "canonical means: keys sorted lexicographically"). -/
def serializeJVal : JVal → String
  | .s v => "\"" ++ v ++ "\""
  | .n v => toString v

/-- Lexicographic comparison of strings by code point. -/
def lexLeChar : List Char → List Char → Bool
  | [], _ => true
  | _ :: _, [] => false
  | a :: as, b :: bs =>
      if a.toNat < b.toNat then true
      else if b.toNat < a.toNat then false
      else lexLeChar as bs

def strLe (a b : String) : Bool := lexLeChar a.data b.data

def insertByKey (f : String × JVal) : List (String × JVal) → List (String × JVal)
  | [] => [f]
  | g :: gs => if strLe f.1 g.1 then f :: g :: gs else g :: insertByKey f gs

def sortByKey : List (String × JVal) → List (String × JVal)
  | [] => []
  | f :: fs => insertByKey f (sortByKey fs)

def serializePayload (pl : List (String × JVal)) : String :=
  "\x7b" ++ String.intercalate ", "
    ((sortByKey pl).map (fun f => "\"" ++ f.1 ++ "\": " ++ serializeJVal f.2))
    ++ "\x7d"

def serializeBoard (board : List (String × List (String × JVal))) : String :=
  "[" ++ String.intercalate ", "
    (board.map (fun e => "[\"" ++ e.1 ++ "\", " ++ serializePayload e.2 ++ "]"))
    ++ "]"

/-- Delete the `time_iso8601` fields — the only clock-dependent data a
post stores. -/
def stripTime (board : List (String × List (String × JVal))) :
    List (String × List (String × JVal)) :=
  board.map (fun e => (e.1, e.2.filter (fun f => !(f.1 == "time_iso8601"))))

/-! ## Claim C4: the transcript header sequence

`sv_verifier.HEADER_LIST` lists the expected headers and `check_headers`
asserts, for a transcript of `[header, payload]` entries, that the
collected headers equal `HEADER_LIST` exactly (it also asserts each
header is a nonempty string and each payload a dict).  But the posting
code of this revision emits different headers: `Election.__init__`
posts `sbb:open`, `setup:start`, `setup:races`, `setup:voters`,
`setup:server-array`, `setup:finished`; `run_election` posts
`casting:votes` (via the cast-vote posting), `tally:results`, then
`make_proof` posts `proof:all_output_commitments`,
`proof:t_values_for_all_output_commitments`,
`proof:verifier_challenges`,
`proof:outcome_check:opened_output_commitments` and **returns before**
`prove_input_consistent`/`compute_and_post_pik_list` (so no
input-consistency entries are posted at all), then `election:done.` and
`sbb:close` follow.  (The run in fact crashes even earlier:
`Election.__init__` calls `SBB(election_id, json_indent)` while
`SBB.__init__` takes only `election_id`, and `run_election` calls the
nonexistent module functions `sv_voter.cast_votes` /
`sv_voter.post_cast_vote_commitments`.) -/

/-- `sv_verifier.HEADER_LIST` (lines 20-36). -/
def HEADER_LIST : List String :=
  ["sbb:open", "setup:start", "setup:races", "setup:voters",
   "setup:server-array", "setup:finished", "casting:votes", "tally:results",
   "proof:output_commitments", "proof:output_commitment_t_values",
   "proof:verifier_challenges", "proof:outcome_check",
   "proof:input_consistency:input_openings",
   "proof:input_consistency:output_openings",
   "proof:input_consistency:pik_for_k_in_icl",
   "election:done.", "sbb:close"]

/-- `sv_verifier.check_headers` (lines 136-152): collect each entry's
header (asserting it is a nonempty string; entries are `[header, dict]`
pairs by the transcript type) and assert the collected list equals
`HEADER_LIST`. -/
def check_headers {α : Type} (sbb : List (String × α)) : Bool :=
  sbb.all (fun item => item.1 != "") && (sbb.map Prod.fst == HEADER_LIST)

/-- The headers posted, in program order, by `Election.__init__` +
`Election.run_election` + `sv_prover.make_proof` of this revision
(assuming each call completed): note `proof:all_output_commitments`
(`sv_prover.py` line 116), `proof:t_values_for_all_output_commitments`
(line 163), `proof:outcome_check:opened_output_commitments` (line 266),
and the early `return` in `make_proof` (line 51) that skips the
`proof:input_check:*` posts. -/
def runElectionHeaders : List String :=
  ["sbb:open", "setup:start", "setup:races", "setup:voters",
   "setup:server-array", "setup:finished", "casting:votes", "tally:results",
   "proof:all_output_commitments", "proof:t_values_for_all_output_commitments",
   "proof:verifier_challenges", "proof:outcome_check:opened_output_commitments",
   "election:done.", "sbb:close"]

/-! ## Claim C3: challenge derivation, prover vs verifier

Both `sv_prover.make_verifier_challenges` and
`sv_verifier.read_verifier_challenges` seed the source
`"verifier_challenges"` with the hash of the transcript truncated before
`proof:verifier_challenges` and then draw: one Fisher–Yates permutation
(prover: of `2*m` with `m = n_reps // 2`; verifier: of `n_reps` — equal
for the even `n_reps` the election requires), splitting `k_list` into
`icl`/`opl`; then, per race id in sorted order and per position, one
draw mod 2, mapped to `"left"` if `1` else `"right"`.  The drawn values
agree draw-by-draw — but the prover posts the per-race left/right
challenges as a JSON **list** in position order
(`sv_prover.make_left_right_challenges`), while the verifier re-derives
a **dict** keyed by the `p_list` names
(`sv_verifier.make_left_right_challenges`) and asserts
`leftright2 == leftright` against the posted value, whose shape check
(`set(lr_dict.keys()) == set(db['p_list'])`) already fails on a list.
The named source is modelled by the stream of its successive draws
(`stream i` = the `bytes2int` of the `i`-th output), consumed from an
explicit offset. -/

/-- Nested JSON values, to compare the posted structures. -/
inductive JTree where
  | s (v : String)
  | arr (items : List JTree)
  | obj (fields : List (String × JTree))

/-- One Fisher–Yates swap: `temp = pi[i]; pi[i] = pi[j]; pi[j] = temp`. -/
def fyStep (pi : List ℕ) (i j : ℕ) : List ℕ :=
  let a := pi.getD i 0
  let b := pi.getD j 0
  (pi.set i b).set j a

/-- `sv.random_permutation(g, rand_name)` for `elts = range(g)`: starting
from `pi = range(g)`, for `i = 1 .. g-1` draw
`j = get_random_from_source(rand_name, i+1)` — i.e. the next stream
value mod `i+1` — and swap; the resulting dict maps `i` to `pi[i]`,
i.e. it is the list itself.  Consumes draws `start .. start+g-2`. -/
def randomPermutation (g : ℕ) (stream : ℕ → ℕ) (start : ℕ) : List ℕ :=
  (List.range' 1 (g - 1)).foldl
    (fun pi i => fyStep pi i (stream (start + i - 1) % (i + 1)))
    (List.range g)

/-- `sv.k_list`. -/
def k_list (nReps : ℕ) : List Char :=
  "ABCDEFGHIJKLMNOPQRSTUVWXYZ".toList.take nReps

def insertNat (x : ℕ) : List ℕ → List ℕ
  | [] => [x]
  | y :: ys => if x ≤ y then x :: y :: ys else y :: insertNat x ys

/-- Python's `sorted` on the index lists. -/
def sortNat : List ℕ → List ℕ
  | [] => []
  | x :: xs => insertNat x (sortNat xs)

/-- `sv_prover.make_cut_and_choose_challenges`: `m = n_reps // 2`,
`pi = random_permutation(2*m, ...)`, `pi = [pi[i] for i in range(2*m)]`,
`icl = [k_list[i] for i in sorted(pi[:m])]`, `opl` likewise from
`pi[m:]`. -/
def proverCut (nReps : ℕ) (stream : ℕ → ℕ) (start : ℕ) :
    List Char × List Char :=
  let m := nReps / 2
  let pi := (randomPermutation (2 * m) stream start).take (2 * m)
  ((sortNat (pi.take m)).map (fun i => (k_list nReps).getD i ' '),
   (sortNat (pi.drop m)).map (fun i => (k_list nReps).getD i ' '))

/-- `sv_verifier.read_verifier_challenges` lines 367-371: identical
except `pi = random_permutation(n_reps, ...)`. -/
def verifierCut (nReps : ℕ) (stream : ℕ → ℕ) (start : ℕ) :
    List Char × List Char :=
  let m := nReps / 2
  let pi := (randomPermutation nReps stream start).take (2 * m)
  ((sortNat (pi.take m)).map (fun i => (k_list nReps).getD i ' '),
   (sortNat (pi.drop m)).map (fun i => (k_list nReps).getD i ' '))

/-- `sv.p_list`: `p0, p1, ...`, zero-padded to the width of
`"%d" % n_voters`. -/
def pList (nVoters : ℕ) : List String :=
  let width := (toString nVoters).length
  (List.range nVoters).map (fun x =>
    let s := toString x
    "p" ++ String.mk (List.replicate (width - s.length) '0') ++ s)

def insertStr (x : String) : List String → List String
  | [] => [x]
  | y :: ys => if strLe x y then x :: y :: ys else y :: insertStr x ys

/-- Python's `sorted` on race ids. -/
def sortStr : List String → List String
  | [] => []
  | x :: xs => insertStr x (sortStr xs)

/-- `"left" if bool(draw % 2) else "right"`. -/
def leftrightSide (v : ℕ) : String := if v % 2 = 1 then "left" else "right"

/-- `sv_prover.make_left_right_challenges`: per race id in sorted
order, a **list** of `n_voters` sides. -/
def proverLeftright (raceIds : List String) (nVoters : ℕ)
    (stream : ℕ → ℕ) (start : ℕ) : List (String × List String) :=
  (sortStr raceIds).enum.map (fun ri =>
    (ri.2, (List.range nVoters).map
      (fun i => leftrightSide (stream (start + ri.1 * nVoters + i)))))

/-- `sv_verifier.make_left_right_challenges`: per race id in sorted
order, a **dict** from `p_list` names to sides (same draws, in the same
order). -/
def verifierLeftright (raceIds : List String) (nVoters : ℕ)
    (stream : ℕ → ℕ) (start : ℕ) : List (String × List (String × String)) :=
  (sortStr raceIds).enum.map (fun ri =>
    (ri.2, (pList nVoters).enum.map
      (fun pi => (pi.2, leftrightSide (stream (start + ri.1 * nVoters + pi.1))))))

/-- The `leftright` structure the prover posts, as a JSON value. -/
def proverLeftrightJ (raceIds : List String) (nVoters : ℕ)
    (stream : ℕ → ℕ) (start : ℕ) : JTree :=
  .obj ((proverLeftright raceIds nVoters stream start).map
    (fun r => (r.1, .arr (r.2.map JTree.s))))

/-- The `leftright` structure the verifier re-derives, as a JSON value. -/
def verifierLeftrightJ (raceIds : List String) (nVoters : ℕ)
    (stream : ℕ → ℕ) (start : ℕ) : JTree :=
  .obj ((verifierLeftright raceIds nVoters stream start).map
    (fun r => (r.1, .obj (r.2.map (fun q => (q.1, JTree.s q.2))))))

def sameKeySet (ks xs : List String) : Bool :=
  ks.all (fun k => xs.contains k) && xs.all (fun x => ks.contains x)

/-- The verifier's structural requirements on the posted `leftright`
(`sv_verifier.read_verifier_challenges` lines 350-357): a dict keyed by
the race ids whose per-race values are dicts keyed by `p_list` with
values `left`/`right` (a per-race **list** fails at
`set(lr_dict.keys())`). -/
def checkLeftrightShape (lr : JTree) (raceIds pL : List String) : Bool :=
  match lr with
  | .obj fields =>
      sameKeySet (fields.map Prod.fst) raceIds &&
      fields.all (fun f =>
        match f.2 with
        | .obj lrf =>
            sameKeySet (lrf.map Prod.fst) pL &&
            lrf.all (fun q =>
              match q.2 with
              | .s v => v == "left" || v == "right"
              | _ => false)
        | _ => false)
  | _ => false

theorem pymod_nonneg (a : ℤ) {M : ℤ} (hM : 0 < M) : 0 ≤ pymod a M := by
  unfold pymod
  exact Int.emod_nonneg _ (ne_of_gt hM)

theorem pymod_lt (a : ℤ) {M : ℤ} (hM : 0 < M) : pymod a M < M := by
  unfold pymod
  exact Int.emod_lt_of_pos _ hM

/-- Casting a `pymod` into `ZMod p` is casting the argument. -/
theorem pymod_cast {p : ℕ} (a : ℤ) :
    ((pymod a (p : ℤ) : ℤ) : ZMod p) = (a : ZMod p) := by
  unfold pymod
  push_cast [ZMod.intCast_mod]
  simp [ZMod.intCast_mod]

/-- Two integers in `[0, p)` with the same image in `ZMod p` are equal. -/
theorem eq_of_cast_eq_of_range {p : ℕ} {a b : ℤ}
    (ha : 0 ≤ a ∧ a < (p : ℤ)) (hb : 0 ≤ b ∧ b < (p : ℤ))
    (h : (a : ZMod p) = (b : ZMod p)) : a = b := by
  have hdvd : ((p : ℤ)) ∣ (a - b) := by
    rw [← ZMod.intCast_zmod_eq_zero_iff_dvd]
    push_cast
    rw [h]
    ring
  have habs : |a - b| < (p : ℤ) := by
    rw [abs_lt]
    constructor <;> omega
  have := Int.eq_zero_of_abs_lt_dvd hdvd habs
  omega

/-- A value of the form `pymod a p` equal to some `b ∈ [0, p)` in `ZMod p`
is equal to `b`. -/
theorem pymod_eq_of_cast_eq {p : ℕ} (hp : 0 < p) {a b : ℤ}
    (hb : 0 ≤ b ∧ b < (p : ℤ)) (h : ((a : ℤ) : ZMod p) = (b : ZMod p)) :
    pymod a (p : ℤ) = b := by
  refine eq_of_cast_eq_of_range ⟨pymod_nonneg a (by exact_mod_cast hp),
    pymod_lt a (by exact_mod_cast hp)⟩ hb ?_
  rw [pymod_cast, h]

theorem share_length (secret : ℤ) (n t : ℕ) (draws : List ℤ) (M : ℤ) :
    (share secret n t draws M).length = n := by
  simp only [share, List.length_map, List.length_range]

theorem ofCoeffList_eval {p : ℕ} (l : List (ZMod p)) (x : ZMod p) :
    (ofCoeffList l).eval x = l.foldr (fun c y => c + x * y) 0 := by
  induction l with
  | nil => simp [ofCoeffList]
  | cons c tl ih =>
      simp only [ofCoeffList, List.foldr_cons] at *
      simp [Polynomial.eval_add, Polynomial.eval_mul, ih]

theorem withBot_one_add_lt {d : WithBot ℕ} {k : ℕ} (h : d < (k : WithBot ℕ)) :
    1 + d < ((k + 1 : ℕ) : WithBot ℕ) := by
  cases d with
  | bot =>
      rw [WithBot.add_bot, Nat.cast_withBot]
      exact WithBot.bot_lt_coe _
  | coe d =>
      rw [Nat.cast_withBot] at h
      have hd : d < k := by exact_mod_cast h
      have h2 : ((1 + d : ℕ) : WithBot ℕ) < ((k + 1 : ℕ) : WithBot ℕ) := by
        rw [Nat.cast_withBot, Nat.cast_withBot]
        exact_mod_cast (by omega : 1 + d < k + 1)
      calc (1 : WithBot ℕ) + (d : WithBot ℕ) = ((1 + d : ℕ) : WithBot ℕ) := by
            push_cast
            rfl
        _ < _ := h2

theorem ofCoeffList_degree_lt {p : ℕ} [Fact p.Prime] (l : List (ZMod p)) :
    (ofCoeffList l).degree < (l.length : WithBot ℕ) := by
  induction l with
  | nil =>
      rw [List.length_nil, Nat.cast_withBot]
      simpa [ofCoeffList] using WithBot.bot_lt_coe (0 : ℕ)
  | cons c tl ih =>
      simp only [ofCoeffList, List.foldr_cons] at *
      refine lt_of_le_of_lt (Polynomial.degree_add_le _ _) (max_lt ?_ ?_)
      · refine lt_of_le_of_lt (Polynomial.degree_C_le) ?_
        rw [List.length_cons, Nat.cast_withBot, ← WithBot.coe_zero]
        exact WithBot.coe_lt_coe.mpr (Nat.succ_pos tl.length)
      · rw [Polynomial.degree_mul, Polynomial.degree_X, List.length_cons]
        exact withBot_one_add_lt ih

/-- `polyEvalHorner` is evaluation of `ofCoeffList` in `ZMod p`. -/
theorem polyEvalHorner_cast {p : ℕ} (coefs : List ℤ) (x : ℤ) :
    ((polyEvalHorner coefs x (p : ℤ) : ℤ) : ZMod p)
      = (ofCoeffList (coefs.map (fun c => ((c : ℤ) : ZMod p)))).eval (x : ZMod p) := by
  rw [ofCoeffList_eval]
  induction coefs with
  | nil => simp [polyEvalHorner]
  | cons c tl ih =>
      simp only [polyEvalHorner, List.foldr_cons, List.map_cons] at *
      rw [pymod_cast]
      push_cast
      rw [ih]
      ring

/-- Fermat inverse: in `ZMod p` (`p` prime), `a ^ (p - 2) = a⁻¹` for
`a ≠ 0`; this is what `pow(denominator, M-2, M)` computes. -/
theorem pow_card_sub_two {p : ℕ} [hp : Fact p.Prime] {a : ZMod p}
    (ha : a ≠ 0) : a ^ (p - 2) = a⁻¹ := by
  have h2 : 2 ≤ p := hp.out.two_le
  have h1 : a ^ (p - 2) * a = 1 := by
    have : a ^ (p - 2) * a = a ^ (p - 1) := by
      rw [← pow_succ]
      congr 1
      omega
    rw [this]
    exact ZMod.pow_card_sub_one_eq_one ha
  exact eq_inv_of_mul_eq_one_right (by rw [mul_comm] at h1; exact h1)

theorem cast_foldl_mul {p : ℕ} (f : ℕ → ℤ) (l : List ℕ) (acc : ℤ) :
    ((l.foldl (fun a j => a * f j) acc : ℤ) : ZMod p)
      = (acc : ZMod p) * (l.map (fun j => ((f j : ℤ) : ZMod p))).prod := by
  induction l generalizing acc with
  | nil => simp
  | cons j tl ih =>
      simp only [List.foldl_cons, List.map_cons, List.prod_cons]
      rw [ih]
      push_cast
      ring

theorem foldl_mul_pos (f : ℕ → ℤ) (l : List ℕ) (acc : ℤ) (hacc : 0 < acc)
    (hf : ∀ j ∈ l, 0 < f j) : 0 < l.foldl (fun a j => a * f j) acc := by
  induction l generalizing acc with
  | nil => simpa
  | cons j tl ih =>
      simp only [List.foldl_cons]
      exact ih _ (mul_pos hacc (hf j (List.mem_cons_self j tl)))
        (fun k hk => hf k (List.mem_cons_of_mem j hk))

/-- A filtered product over `List.range t` is a product over the
corresponding filtered `Finset.range t`. -/
theorem prod_filter_range {p : ℕ} (g : ℕ → ZMod p) (P : ℕ → Bool) (t : ℕ) :
    (((List.range t).filter P).map g).prod
      = ∏ j ∈ (Finset.range t).filter (fun j => P j = true), g j := by
  induction t with
  | zero => simp
  | succ t ih =>
      rw [List.range_succ, List.filter_append, List.map_append, List.prod_append,
        Finset.range_succ, Finset.filter_insert]
      by_cases hP : P t = true
      · rw [if_pos hP]
        rw [Finset.prod_insert (by simp)]
        simp [hP, ih, mul_comm]
      · rw [if_neg hP]
        simp only [List.filter_cons, List.filter_nil]
        rw [if_neg (by simpa using hP)]
        simp [ih]

theorem sum_map_range {p : ℕ} (g : ℕ → ZMod p) (t : ℕ) :
    ((List.range t).map g).sum = ∑ j ∈ Finset.range t, g j := by
  induction t with
  | zero => simp
  | succ t ih =>
      rw [List.range_succ, List.map_append, List.sum_append, Finset.sum_range_succ]
      simp [ih]

/-- The interpolation identity: for any polynomial `Q` over `ZMod p` of
degree `< t` and any `t` distinct nodes, the weighted sum of the values
of `Q` at the nodes with the Lagrange weights `lamW` recovers `Q.eval 0`.
This is property the `sv.lagrange` formula computes. -/
theorem sum_eval_mul_lamW {p t : ℕ} [Fact p.Prime] (node : ℕ → ZMod p)
    (hinj : ∀ i j, i < t → j < t → i ≠ j → node i ≠ node j)
    (Q : Polynomial (ZMod p)) (hdeg : Q.degree < (t : WithBot ℕ)) :
    ∑ i ∈ Finset.range t, Q.eval (node i) * lamW p t node i = Q.eval 0 := by
  have hvs : Set.InjOn node ↑(Finset.range t) := by
    intro i hi j hj hij
    by_contra hne
    exact hinj i j (by simpa using hi) (by simpa using hj) hne hij
  have hQ := Lagrange.eq_interpolate hvs
    (by rwa [Finset.card_range] : Q.degree < ((Finset.range t).card : WithBot ℕ))
  have heval0 : Q.eval 0
      = ∑ i ∈ Finset.range t, Q.eval (node i) * (Lagrange.basis (Finset.range t) node i).eval 0 := by
    conv_lhs => rw [hQ]
    rw [Lagrange.interpolate_apply, Polynomial.eval_finset_sum]
    refine Finset.sum_congr rfl fun i _ => ?_
    rw [Polynomial.eval_mul, Polynomial.eval_C]
  rw [heval0]
  refine Finset.sum_congr rfl fun i hi => ?_
  congr 1
  rw [Lagrange.basis, Polynomial.eval_prod]
  have hstep : ∀ j ∈ (Finset.range t).erase i,
      (Lagrange.basisDivisor (node i) (node j)).eval 0
        = -(node j) * (node i - node j)⁻¹ := by
    intro j _
    rw [Lagrange.basisDivisor]
    rw [Polynomial.eval_mul, Polynomial.eval_C, Polynomial.eval_sub,
      Polynomial.eval_X, Polynomial.eval_C]
    ring
  rw [Finset.prod_congr rfl hstep, Finset.prod_mul_distrib,
    Finset.prod_inv_distrib, lamW]

theorem filter_ne_range_eq_erase (t i : ℕ) :
    (Finset.range t).filter (fun j => (decide (j ≠ i)) = true)
      = (Finset.range t).erase i := by
  rw [← Finset.filter_ne']
  refine Finset.filter_congr fun j _ => by simp

/-- Cast of the `numerator` product of `sv.lagrange`. -/
theorem lagNumer_cast {p : ℕ} (xs : List ℤ) (t i : ℕ) :
    ((lagNumer xs t i (p : ℤ) : ℤ) : ZMod p)
      = ∏ j ∈ (Finset.range t).erase i, -((xs.getD j 0 : ℤ) : ZMod p) := by
  rw [lagNumer, cast_foldl_mul]
  rw [show ((1 : ℤ) : ZMod p) = 1 by push_cast; rfl, one_mul]
  have : (fun j => ((pymod (-(xs.getD j 0)) (p : ℤ) : ℤ) : ZMod p))
      = fun j => -((xs.getD j 0 : ℤ) : ZMod p) := by
    funext j
    rw [pymod_cast]
    push_cast
    ring
  rw [this, prod_filter_range, filter_ne_range_eq_erase]

/-- Cast of the `denominator` product of `sv.lagrange`. -/
theorem lagDenom_cast {p : ℕ} (xs : List ℤ) (t i : ℕ) :
    ((lagDenom xs t i (p : ℤ) : ℤ) : ZMod p)
      = ∏ j ∈ (Finset.range t).erase i,
          (((xs.getD i 0 : ℤ) : ZMod p) - ((xs.getD j 0 : ℤ) : ZMod p)) := by
  rw [lagDenom, cast_foldl_mul]
  rw [show ((1 : ℤ) : ZMod p) = 1 by push_cast; rfl, one_mul]
  have : (fun j => ((pymod (xs.getD i 0 - xs.getD j 0) (p : ℤ) : ℤ) : ZMod p))
      = fun j => (((xs.getD i 0 : ℤ) : ZMod p) - ((xs.getD j 0 : ℤ) : ZMod p)) := by
    funext j
    rw [pymod_cast]
    push_cast
    ring
  rw [this, prod_filter_range, filter_ne_range_eq_erase]

/-- Under distinct nodes, the integer `denominator` is strictly positive
(so the source's `assert denominator != 0` passes). -/
theorem lagDenom_pos {p : ℕ} [hp : Fact p.Prime] (xs : List ℤ) (t i : ℕ)
    (hi : i < t)
    (hinj : ∀ a b, a < t → b < t → a ≠ b →
      ((xs.getD a 0 : ℤ) : ZMod p) ≠ ((xs.getD b 0 : ℤ) : ZMod p)) :
    0 < lagDenom xs t i (p : ℤ) := by
  have hppos : (0 : ℤ) < (p : ℤ) := by exact_mod_cast hp.out.pos
  refine foldl_mul_pos _ _ _ one_pos ?_
  intro j hj
  rw [List.mem_filter, List.mem_range] at hj
  obtain ⟨hjt, hji⟩ := hj
  have hji' : j ≠ i := by simpa using hji
  have hne : ((xs.getD i 0 : ℤ) : ZMod p) ≠ ((xs.getD j 0 : ℤ) : ZMod p) :=
    hinj i j hi hjt (Ne.symm hji')
  rcases lt_or_eq_of_le (pymod_nonneg (xs.getD i 0 - xs.getD j 0) hppos) with h | h
  · exact h
  · exfalso
    apply hne
    have : ((pymod (xs.getD i 0 - xs.getD j 0) (p : ℤ) : ℤ) : ZMod p) = 0 := by
      rw [← h]
      push_cast
      ring
    rw [pymod_cast] at this
    push_cast at this
    rw [sub_eq_zero] at this
    exact this

/-- Under distinct nodes, the cast of the denominator is nonzero in
`ZMod p`. -/
theorem lagDenom_cast_ne_zero {p : ℕ} [Fact p.Prime] (xs : List ℤ) (t i : ℕ)
    (hi : i < t)
    (hinj : ∀ a b, a < t → b < t → a ≠ b →
      ((xs.getD a 0 : ℤ) : ZMod p) ≠ ((xs.getD b 0 : ℤ) : ZMod p)) :
    ((lagDenom xs t i (p : ℤ) : ℤ) : ZMod p) ≠ 0 := by
  rw [lagDenom_cast]
  refine Finset.prod_ne_zero_iff.mpr ?_
  intro j hj
  rw [Finset.mem_erase, Finset.mem_range] at hj
  rw [sub_ne_zero]
  exact hinj i j hi hj.2 (Ne.symm hj.1)

/-- Full analysis of the `sv.lagrange` loop: with distinct nodes, no
assert fires, and the result accumulates
`acc + sum of y_i * lamW i` in `ZMod p`. -/
theorem lagrangeFold_ok {p : ℕ} [hp : Fact p.Prime] (xs ys : List ℤ) (t : ℕ)
    (hinj : ∀ a b, a < t → b < t → a ≠ b →
      ((xs.getD a 0 : ℤ) : ZMod p) ≠ ((xs.getD b 0 : ℤ) : ZMod p)) :
    ∀ (is : List ℕ) (acc : ℤ), (∀ i ∈ is, i < t) →
    ∃ r, lagrangeFold xs ys t (p : ℤ) is acc = .ok r ∧
      ((r : ZMod p) = (acc : ZMod p)
        + (is.map (fun i => ((ys.getD i 0 : ℤ) : ZMod p)
            * lamW p t (fun j => ((xs.getD j 0 : ℤ) : ZMod p)) i)).sum) ∧
      (is = [] → r = acc) ∧ (is ≠ [] → 0 ≤ r ∧ r < (p : ℤ)) := by
  intro is
  induction is with
  | nil =>
      intro acc _
      exact ⟨acc, rfl, by simp, fun _ => rfl, fun h => absurd rfl h⟩
  | cons i rest ih =>
      intro acc hmem
      have hi : i < t := hmem i (List.mem_cons_self i rest)
      have hppos : (0 : ℤ) < (p : ℤ) := by exact_mod_cast hp.out.pos
      have h2 : 2 ≤ p := hp.out.two_le
      have hde := lagDenom_pos (p := p) xs t i hi hinj
      have hdene : lagDenom xs t i (p : ℤ) ≠ 0 := ne_of_gt hde
      have hDne : ((lagDenom xs t i (p : ℤ) : ℤ) : ZMod p) ≠ 0 :=
        lagDenom_cast_ne_zero xs t i hi hinj
      have htn : (((p : ℤ) - 2).toNat) = p - 2 := by omega
      -- the inverse-check assertion passes
      have hinv : ((pymod (lagDenom xs t i (p : ℤ)
          ^ ((p : ℤ) - 2).toNat) (p : ℤ) : ℤ) : ZMod p)
          = ((lagDenom xs t i (p : ℤ) : ℤ) : ZMod p)⁻¹ := by
        rw [pymod_cast, htn]
        push_cast
        exact pow_card_sub_two hDne
      have hcheck : pymod (lagDenom xs t i (p : ℤ)
          * pymod (lagDenom xs t i (p : ℤ) ^ ((p : ℤ) - 2).toNat) (p : ℤ)) (p : ℤ) = 1 := by
        refine pymod_eq_of_cast_eq (by omega) ⟨by norm_num, by exact_mod_cast h2⟩ ?_
        push_cast [hinv]
        exact mul_inv_cancel₀ hDne
      obtain ⟨r, hres, hcast, hnil, hbound⟩ := ih
        (pymod (acc + ys.getD i 0 * lagNumer xs t i (p : ℤ)
          * pymod (lagDenom xs t i (p : ℤ) ^ ((p : ℤ) - 2).toNat) (p : ℤ)) (p : ℤ))
        (fun j hj => hmem j (List.mem_cons_of_mem i hj))
      refine ⟨r, ?_, ?_, by intro h; exact absurd h (by simp), ?_⟩
      · rw [lagrangeFold]
        rw [if_neg (by exact hdene), if_pos hcheck]
        exact hres
      · rw [hcast, pymod_cast]
        push_cast [hinv, lagNumer_cast]
        rw [List.map_cons, List.sum_cons]
        rw [lamW]
        rw [lagDenom_cast]
        ring
      · intro _
        rcases Decidable.em (rest = []) with hr | hr
        · rw [hnil hr]
          exact ⟨pymod_nonneg _ hppos, pymod_lt _ hppos⟩
        · exact hbound hr

/-- Specification of `sv.lagrange` for a prime modulus and distinct
nodes: the call succeeds, the result is reduced mod `p`, and in `ZMod p`
it is the weighted sum of the `y` values with the Lagrange weights. -/
theorem lagrange_spec {p : ℕ} [hp : Fact p.Prime] (sl : List (ℤ × ℤ)) (n t : ℕ)
    (ht : 1 ≤ t) (htn : t ≤ n) (hn : (n : ℤ) ≤ (p : ℤ) - 1)
    (hlen : t ≤ sl.length)
    (hinj : ∀ a b, a < t → b < t → a ≠ b →
      ((((sl.take t).map Prod.fst).getD a 0 : ℤ) : ZMod p)
        ≠ (((sl.take t).map Prod.fst).getD b 0 : ZMod p)) :
    ∃ r, lagrange sl n t (p : ℤ) = .ok r ∧ 0 ≤ r ∧ r < (p : ℤ) ∧
      (r : ZMod p) = ∑ i ∈ Finset.range t,
        ((((sl.take t).map Prod.snd).getD i 0 : ℤ) : ZMod p)
          * lamW p t (fun j => ((((sl.take t).map Prod.fst).getD j 0 : ℤ) : ZMod p)) i := by
  obtain ⟨r, hres, hcast, _, hbound⟩ :=
    lagrangeFold_ok (p := p) ((sl.take t).map Prod.fst) ((sl.take t).map Prod.snd) t hinj
      (List.range t) 0 (fun i hi => List.mem_range.mp hi)
  have hne : List.range t ≠ [] := by
    intro h
    have := List.range_eq_nil.mp h
    omega
  refine ⟨r, ?_, (hbound hne).1, (hbound hne).2, ?_⟩
  · rw [lagrange, if_pos ⟨ht, htn, hn, hlen⟩]
    exact hres
  · rw [hcast]
    rw [show ((0 : ℤ) : ZMod p) = 0 by push_cast; rfl, zero_add]
    exact sum_map_range _ t

theorem ofCoeffList_eval_zero {p : ℕ} (l : List (ZMod p)) :
    (ofCoeffList l).eval 0 = l.headD 0 := by
  rw [ofCoeffList_eval]
  cases l with
  | nil => simp
  | cons c tl => simp

theorem getD_map_range {α : Type} (h : ℕ → α) {t j : ℕ} (hj : j < t) (d : α) :
    ((List.range t).map h).getD j d = h j := by
  rw [List.getD_eq_getElem?_getD, List.getElem?_map, List.getElem?_range hj]
  rfl

/-- Reconstruction: if the `y` values of the first `t` shares are the
evaluations of a polynomial with coefficient list `coefs` (of length
`≤ t`) at the corresponding distinct `x` nodes, then `sv.lagrange`
succeeds and returns the reduction mod `p` of the constant coefficient. -/
theorem lagrange_reconstruct {p : ℕ} [hp : Fact p.Prime]
    (sl : List (ℤ × ℤ)) (n t : ℕ) (coefs : List ℤ)
    (ht : 1 ≤ t) (htn : t ≤ n) (hn : (n : ℤ) ≤ (p : ℤ) - 1)
    (hlen : t ≤ sl.length)
    (hinj : ∀ a b, a < t → b < t → a ≠ b →
      ((((sl.take t).map Prod.fst).getD a 0 : ℤ) : ZMod p)
        ≠ (((sl.take t).map Prod.fst).getD b 0 : ZMod p))
    (hct : coefs.length ≤ t)
    (hy : ∀ i, i < t →
      ((((sl.take t).map Prod.snd).getD i 0 : ℤ) : ZMod p)
        = (ofCoeffList (coefs.map (fun c => ((c : ℤ) : ZMod p)))).eval
            ((((sl.take t).map Prod.fst).getD i 0 : ℤ) : ZMod p)) :
    ∃ r, lagrange sl n t (p : ℤ) = .ok r ∧ 0 ≤ r ∧ r < (p : ℤ) ∧
      (r : ZMod p) = ((coefs.headD 0 : ℤ) : ZMod p) := by
  obtain ⟨r, hres, h0, hlt, hcast⟩ := lagrange_spec (p := p) sl n t ht htn hn hlen hinj
  refine ⟨r, hres, h0, hlt, ?_⟩
  rw [hcast]
  have hdeg : (ofCoeffList (coefs.map (fun c => ((c : ℤ) : ZMod p)))).degree
      < (t : WithBot ℕ) := by
    refine lt_of_lt_of_le (ofCoeffList_degree_lt _) ?_
    rw [List.length_map, Nat.cast_withBot, Nat.cast_withBot]
    exact_mod_cast hct
  have hsum := sum_eval_mul_lamW
    (fun j => ((((sl.take t).map Prod.fst).getD j 0 : ℤ) : ZMod p)) hinj
    (ofCoeffList (coefs.map (fun c => ((c : ℤ) : ZMod p)))) hdeg
  rw [Finset.sum_congr rfl (fun i hi => by
    rw [hy i (Finset.mem_range.mp hi)]), hsum, ofCoeffList_eval_zero]
  cases coefs with
  | nil => simp
  | cons c tl => simp

theorem getD_map_get {α β : Type} (l : List α) (f : α → β) {a : ℕ}
    (ha : a < l.length) (d : β) : (l.map f).getD a d = f (l.get ⟨a, ha⟩) := by
  rw [List.getD_eq_getElem?_getD, List.getElem?_map,
    List.getElem?_eq_getElem ha]
  rfl

theorem intCast_ne_of_lt_of_bounds {p : ℕ} {x y : ℤ}
    (h1 : 0 < y - x) (h2 : y - x < (p : ℤ)) :
    (x : ZMod p) ≠ (y : ZMod p) := by
  intro h
  have hz : ((y - x : ℤ) : ZMod p) = 0 := by
    push_cast
    rw [h]
    ring
  have hdvd := (ZMod.intCast_zmod_eq_zero_iff_dvd _ _).mp hz
  have := Int.eq_zero_of_abs_lt_dvd hdvd (by rw [abs_of_pos h1]; exact h2)
  omega

theorem mem_share {secret : ℤ} {n t : ℕ} {draws : List ℤ} {M : ℤ}
    {ab : ℤ × ℤ} (h : ab ∈ share secret n t draws M) :
    ∃ i : ℕ, i < n ∧ ab.1 = (i : ℤ) + 1
      ∧ ab.2 = polyEvalHorner (secret :: draws.tail) ((i : ℤ) + 1) M := by
  rw [share, List.mem_map] at h
  obtain ⟨i, hi, hab⟩ := h
  exact ⟨i, List.mem_range.mp hi, by rw [← hab], by rw [← hab]⟩

theorem share_fst_pairwise (secret : ℤ) (n t : ℕ) (draws : List ℤ) (M : ℤ) :
    (share secret n t draws M).Pairwise (fun a b => a.1 < b.1) := by
  rw [share]
  refine List.Pairwise.map _ (fun i j h => ?_) (List.pairwise_lt_range n)
  simpa using h

theorem fuzzVal_eq (rows t : ℕ) (draws : List ℤ) (M : ℤ) {i : ℕ}
    (hi : i < rows) :
    fuzzVal rows t draws M i
      = polyEvalHorner (0 :: draws.tail) ((i : ℤ) + 1) M := by
  rw [fuzzVal, share, getD_map_range _ hi]

theorem stdNode_inj {p t : ℕ} (htp : (t : ℤ) ≤ (p : ℤ) - 1) :
    ∀ a b, a < t → b < t → a ≠ b → stdNode p a ≠ stdNode p b := by
  intro a b ha hb hab
  rcases Nat.lt_or_ge a b with h | h
  · exact intCast_ne_of_lt_of_bounds (by omega) (by omega)
  · have h' : b < a := by omega
    exact (intCast_ne_of_lt_of_bounds (x := (b : ℤ) + 1) (y := (a : ℤ) + 1)
      (by omega) (by omega)).symm

/-- The fuzz values of the first `t` rows are a sharing of `0`: their
`lamW`-weighted sum vanishes. -/
theorem sum_fuzz_lamW_zero {p : ℕ} [Fact p.Prime] (rows t : ℕ)
    (draws : List ℤ) (ht : 1 ≤ t) (htr : t ≤ rows)
    (hrp : (rows : ℤ) ≤ (p : ℤ) - 1) (hdl : draws.length = t) :
    ∑ i ∈ Finset.range t,
        ((fuzzVal rows t draws (p : ℤ) i : ℤ) : ZMod p) * lamW p t (stdNode p) i
      = 0 := by
  have hinj := stdNode_inj (p := p) (t := t) (by omega)
  have hdeg : (ofCoeffList ((0 :: draws.tail).map
      (fun c => ((c : ℤ) : ZMod p)))).degree < (t : WithBot ℕ) := by
    refine lt_of_lt_of_le (ofCoeffList_degree_lt _) ?_
    rw [List.length_map, List.length_cons, List.length_tail, hdl,
      Nat.cast_withBot, Nat.cast_withBot]
    exact_mod_cast (by omega : (t - 1) + 1 ≤ t)
  have hsum := sum_eval_mul_lamW (stdNode p) hinj _ hdeg
  have hco : ∀ i ∈ Finset.range t,
      ((fuzzVal rows t draws (p : ℤ) i : ℤ) : ZMod p) * lamW p t (stdNode p) i
      = (ofCoeffList ((0 :: draws.tail).map
          (fun c => ((c : ℤ) : ZMod p)))).eval (stdNode p i) * lamW p t (stdNode p) i := by
    intro i hi
    rw [fuzzVal_eq rows t draws (p : ℤ)
        (lt_of_lt_of_le (Finset.mem_range.mp hi) htr),
      polyEvalHorner_cast]
    rfl
  rw [Finset.sum_congr rfl hco, hsum, ofCoeffList_eval_zero]
  simp

/-- Mix invariance: tracing a position through the pass and
Lagrange-combining the first `threshold` rows of the output gives the
same field value as combining the inputs at the original position. -/
theorem mixPass_lagrange_sum {p : ℕ} [Fact p.Prime] {nv : ℕ} (rows t : ℕ)
    (ht : 1 ≤ t) (htr : t ≤ rows) (hrp : (rows : ℤ) ≤ (p : ℤ) - 1)
    (cols : List (Equiv.Perm (Fin nv) × (Fin nv → List ℤ)))
    (hdl : ∀ c ∈ cols, ∀ m, (c.2 m).length = t) :
    ∀ (x0 : ℕ → Fin nv → ℤ) (px : Fin nv),
    ∑ i ∈ Finset.range t,
        ((mixPass rows t (p : ℤ) cols x0 i (tracePos cols px) : ℤ) : ZMod p)
          * lamW p t (stdNode p) i
      = ∑ i ∈ Finset.range t, ((x0 i px : ℤ) : ZMod p) * lamW p t (stdNode p) i := by
  induction cols with
  | nil => intro x0 px; rfl
  | cons c cs ih =>
      intro x0 px
      have hstep : ∀ i ∈ Finset.range t,
          ((mixStep rows t (p : ℤ) x0 c.1 c.2 i (c.1.symm px) : ℤ) : ZMod p)
            * lamW p t (stdNode p) i
          = (((x0 i px : ℤ) : ZMod p)
              + ((fuzzVal rows t (c.2 (c.1.symm px)) (p : ℤ) i : ℤ) : ZMod p))
            * lamW p t (stdNode p) i := by
        intro i _
        congr 1
        rw [mixStep, applyPermutation, pymod_cast, Equiv.apply_symm_apply]
        push_cast
        ring
      have hmid : ∑ i ∈ Finset.range t,
          ((mixStep rows t (p : ℤ) x0 c.1 c.2 i (c.1.symm px) : ℤ) : ZMod p)
            * lamW p t (stdNode p) i
          = ∑ i ∈ Finset.range t, ((x0 i px : ℤ) : ZMod p) * lamW p t (stdNode p) i := by
        rw [Finset.sum_congr rfl hstep]
        have : ∀ i ∈ Finset.range t,
            (((x0 i px : ℤ) : ZMod p)
              + ((fuzzVal rows t (c.2 (c.1.symm px)) (p : ℤ) i : ℤ) : ZMod p))
            * lamW p t (stdNode p) i
            = ((x0 i px : ℤ) : ZMod p) * lamW p t (stdNode p) i
              + ((fuzzVal rows t (c.2 (c.1.symm px)) (p : ℤ) i : ℤ) : ZMod p)
                * lamW p t (stdNode p) i := fun i _ => by ring
        rw [Finset.sum_congr rfl this, Finset.sum_add_distrib,
          sum_fuzz_lamW_zero rows t _ ht htr hrp
            (hdl c (List.mem_cons_self c cs) (c.1.symm px)), add_zero]
      calc ∑ i ∈ Finset.range t,
            ((mixPass rows t (p : ℤ) (c :: cs) x0 i (tracePos (c :: cs) px) : ℤ) : ZMod p)
              * lamW p t (stdNode p) i
          = ∑ i ∈ Finset.range t,
            ((mixPass rows t (p : ℤ) cs (mixStep rows t (p : ℤ) x0 c.1 c.2) i
                (tracePos cs (c.1.symm px)) : ℤ) : ZMod p)
              * lamW p t (stdNode p) i := rfl
        _ = ∑ i ∈ Finset.range t,
            ((mixStep rows t (p : ℤ) x0 c.1 c.2 i (c.1.symm px) : ℤ) : ZMod p)
              * lamW p t (stdNode p) i :=
            ih (fun d hd => hdl d (List.mem_cons_of_mem c hd))
              (mixStep rows t (p : ℤ) x0 c.1 c.2) (c.1.symm px)
        _ = _ := hmid

theorem lamW_congr {p t : ℕ} {node₁ node₂ : ℕ → ZMod p}
    (h : ∀ j, j < t → node₁ j = node₂ j) {i : ℕ} (hi : i < t) :
    lamW p t node₁ i = lamW p t node₂ i := by
  rw [lamW, lamW]
  congr 1
  · refine Finset.prod_congr rfl fun j hj => ?_
    rw [h j (Finset.mem_range.mp (Finset.mem_of_mem_erase hj))]
  · congr 1
    refine Finset.prod_congr rfl fun j hj => ?_
    rw [h j (Finset.mem_range.mp (Finset.mem_of_mem_erase hj)), h i hi]

theorem enumShares_take (rows t : ℕ) (f : ℕ → ℤ) (htr : t ≤ rows) :
    (enumShares rows f).take t = enumShares t f := by
  rw [enumShares, enumShares, ← List.map_take, List.take_range,
    Nat.min_eq_left htr]

theorem enumShares_fst_getD (t : ℕ) (f : ℕ → ℤ) {a : ℕ} (ha : a < t) :
    ((enumShares t f).map Prod.fst).getD a 0 = (a : ℤ) + 1 := by
  rw [enumShares, List.map_map]
  exact getD_map_range _ ha 0

theorem enumShares_snd_getD (t : ℕ) (f : ℕ → ℤ) {a : ℕ} (ha : a < t) :
    ((enumShares t f).map Prod.snd).getD a 0 = f a := by
  rw [enumShares, List.map_map]
  exact getD_map_range _ ha 0

/-- `sv.lagrange` on a row-indexed share list `[(i+1, f i)]`: with a
prime modulus and `t ≤ rows ≤ p - 1` no assert fires and the result is
the `lamW`-weighted sum of the `f` values at the standard nodes. -/
theorem lagrange_enumShares_spec {p : ℕ} [hp : Fact p.Prime]
    (rows n t : ℕ) (f : ℕ → ℤ) (ht : 1 ≤ t) (htn : t ≤ n) (htr : t ≤ rows)
    (hn : (n : ℤ) ≤ (p : ℤ) - 1) (htp : (t : ℤ) ≤ (p : ℤ) - 1) :
    ∃ r, lagrange (enumShares rows f) n t (p : ℤ) = .ok r ∧
      0 ≤ r ∧ r < (p : ℤ) ∧
      (r : ZMod p) = ∑ i ∈ Finset.range t,
        ((f i : ℤ) : ZMod p) * lamW p t (stdNode p) i := by
  have hlen : t ≤ (enumShares rows f).length := by
    rw [enumShares, List.length_map, List.length_range]
    exact htr
  have htake := enumShares_take rows t f htr
  have hinj : ∀ a b, a < t → b < t → a ≠ b →
      ((((enumShares rows f).take t).map Prod.fst).getD a 0 : ZMod p)
        ≠ ((((enumShares rows f).take t).map Prod.fst).getD b 0 : ZMod p) := by
    intro a b ha hb hab
    rw [htake, enumShares_fst_getD t f ha, enumShares_fst_getD t f hb]
    exact stdNode_inj htp a b ha hb hab
  obtain ⟨r, hres, h0, hlt, hcast⟩ := lagrange_spec (p := p) _ n t ht htn hn hlen hinj
  refine ⟨r, hres, h0, hlt, ?_⟩
  rw [hcast]
  refine Finset.sum_congr rfl fun i hi => ?_
  have hi' := Finset.mem_range.mp hi
  rw [htake, enumShares_snd_getD t f hi']
  congr 1
  refine lamW_congr (fun j hj => ?_) hi'
  rw [enumShares_fst_getD t f hj]
  rfl

/-! ## Claim C2: the t-values reconstruct to `(t, -t)`

`sv_prover.compute_and_post_t_values` sets, per race, pass and row,
`ux, vx` to the cast-vote split pair at input position `px` (where
`Voter.cast_votes` produced `(u, v) = get_sv_pair(x, ...)`, i.e. `v =
(x - u) % M`), traces `px` through the pass's `pi_inv`s to `py`, sets
`uy, vy` to the output-commitment split pair at `py` (where
`make_full_output` produced `(u', v') = get_sv_pair(y, ...)`), and posts
`tu = (uy - ux) % M`, `tv = (vy - vx) % M`.
`sv_verifier.check_input_consistency_t_values` Lagrange-reconstructs the
row vectors `list(enumerate(tu_list, 1))` and `list(enumerate(tv_list, 1))`
with `lagrange(., rows, threshold, M)` and asserts `(tu0 + tv0) % M == 0`.
In the theorem: `x0 i px` is the cast share of row `i` at position `px`,
`u0 i px` the voter-drawn `u` (so `v = pymod (x0 - u0) M`), the mix output
is `mixPass ... x0`, `uOut i py` the output-drawn `u'` (so
`v' = pymod (y - u') M`), and `py = tracePos cols px`. -/

/-- **C2**: for every race (prime modulus `p`), every pass (its column
permutations and fuzz draws `cols`) and every input position `px`,
assuming the cast-vote shares and mix outputs were produced by
`Voter.cast_votes` and `Server.mix`, the share lists `((i+1, tu_i))` and
`((i+1, tv_i))` Lagrange-reconstruct with parameters
`(rows, threshold, M)` to values `t`, `t'` with `(t + t') mod M = 0`. -/
theorem C2_t_values_reconstruct_to_t_neg_t {p : ℕ} [hp : Fact p.Prime]
    {nv : ℕ} (rows t : ℕ)
    (cols : List (Equiv.Perm (Fin nv) × (Fin nv → List ℤ)))
    (ht : 1 ≤ t) (htr : t ≤ rows) (hrp : (rows : ℤ) ≤ (p : ℤ) - 1)
    (hdl : ∀ c ∈ cols, ∀ m, (c.2 m).length = t)
    (x0 u0 uOut : ℕ → Fin nv → ℤ) (px : Fin nv) :
    ∃ tu tv,
      lagrange (enumShares rows (fun i =>
          pymod (uOut i (tracePos cols px) - u0 i px) (p : ℤ)))
        rows t (p : ℤ) = .ok tu ∧
      lagrange (enumShares rows (fun i =>
          pymod (pymod (mixPass rows t (p : ℤ) cols x0 i (tracePos cols px)
                  - uOut i (tracePos cols px)) (p : ℤ)
                - pymod (x0 i px - u0 i px) (p : ℤ)) (p : ℤ)))
        rows t (p : ℤ) = .ok tv ∧
      pymod (tu + tv) (p : ℤ) = 0 := by
  have htp : (t : ℤ) ≤ (p : ℤ) - 1 := by omega
  obtain ⟨tu, hresu, _, _, hcastu⟩ := lagrange_enumShares_spec (p := p) rows rows t
    (fun i => pymod (uOut i (tracePos cols px) - u0 i px) (p : ℤ))
    ht htr htr hrp htp
  obtain ⟨tv, hresv, _, _, hcastv⟩ := lagrange_enumShares_spec (p := p) rows rows t
    (fun i => pymod (pymod (mixPass rows t (p : ℤ) cols x0 i (tracePos cols px)
          - uOut i (tracePos cols px)) (p : ℤ)
        - pymod (x0 i px - u0 i px) (p : ℤ)) (p : ℤ))
    ht htr htr hrp htp
  refine ⟨tu, tv, hresu, hresv, ?_⟩
  have h2 : 2 ≤ p := hp.out.two_le
  refine pymod_eq_of_cast_eq (by omega) ⟨le_refl 0, by exact_mod_cast hp.out.pos⟩ ?_
  push_cast [hcastu, hcastv]
  rw [← Finset.sum_add_distrib]
  have hterm : ∀ i ∈ Finset.range t,
      ((pymod (uOut i (tracePos cols px) - u0 i px) (p : ℤ) : ℤ) : ZMod p)
          * lamW p t (stdNode p) i
        + ((pymod (pymod (mixPass rows t (p : ℤ) cols x0 i (tracePos cols px)
                - uOut i (tracePos cols px)) (p : ℤ)
              - pymod (x0 i px - u0 i px) (p : ℤ)) (p : ℤ) : ℤ) : ZMod p)
          * lamW p t (stdNode p) i
      = ((mixPass rows t (p : ℤ) cols x0 i (tracePos cols px) : ℤ) : ZMod p)
          * lamW p t (stdNode p) i
        - ((x0 i px : ℤ) : ZMod p) * lamW p t (stdNode p) i := by
    intro i _
    rw [pymod_cast, pymod_cast]
    push_cast [pymod_cast]
    ring
  rw [Finset.sum_congr rfl hterm, Finset.sum_sub_distrib,
    mixPass_lagrange_sum rows t ht htr hrp cols hdl x0 px, sub_self]

theorem getD_eq_get {α : Type} (l : List α) {a : ℕ}
    (ha : a < l.length) (d : α) : l.getD a d = l.get ⟨a, ha⟩ := by
  rw [List.getD_eq_getElem?_getD, List.getElem?_eq_getElem ha]
  rfl

/-- `sv.lagrange` on the share list of an arbitrary distinct row subset
`S` (of size `t`, rows below `bound ≤ p - 1`): no assert fires and the
result is the weighted sum of the values at the nodes `S[a] + 1`. -/
theorem lagrange_rowSubset_spec {p : ℕ} [hp : Fact p.Prime]
    (n t bound : ℕ) (S : List ℕ) (f : ℕ → ℤ)
    (ht : 1 ≤ t) (htn : t ≤ n) (hn : (n : ℤ) ≤ (p : ℤ) - 1)
    (hS : S.length = t) (hSd : S.Pairwise (fun a b => a ≠ b))
    (hSlt : ∀ i ∈ S, i < bound) (hbp : (bound : ℤ) ≤ (p : ℤ) - 1) :
    ∃ r, lagrange (S.map fun (i : ℕ) => ((i : ℤ) + 1, f i)) n t (p : ℤ) = .ok r ∧
      0 ≤ r ∧ r < (p : ℤ) ∧
      (r : ZMod p) = ∑ a ∈ Finset.range t,
        ((f (S.getD a 0) : ℤ) : ZMod p)
          * lamW p t (fun j => (((S.getD j 0 : ℤ) + 1 : ℤ) : ZMod p)) a := by
  set sl := S.map (fun (i : ℕ) => ((i : ℤ) + 1, f i)) with hsl
  have hslen : sl.length = t := by rw [hsl, List.length_map, hS]
  have htake : sl.take t = sl := by rw [← hslen, List.take_length]
  have hget : ∀ {a : ℕ} (ha : a < t), S.getD a 0 = S.get ⟨a, by omega⟩ := by
    intro a ha
    exact getD_eq_get S (by omega) 0
  have hgetfst : ∀ {a : ℕ} (ha : a < t),
      ((sl.take t).map Prod.fst).getD a 0 = ((S.getD a 0 : ℤ) + 1) := by
    intro a ha
    rw [htake, hsl, List.map_map]
    rw [getD_map_get S _ (by rw [hS]; exact ha) 0, hget ha]
    rfl
  have hgetsnd : ∀ {a : ℕ} (ha : a < t),
      ((sl.take t).map Prod.snd).getD a 0 = f (S.getD a 0) := by
    intro a ha
    rw [htake, hsl, List.map_map]
    rw [getD_map_get S _ (by rw [hS]; exact ha) 0, hget ha]
    rfl
  have hSne : ∀ {a b : ℕ}, a < t → b < t → a ≠ b →
      S.getD a 0 ≠ S.getD b 0 := by
    intro a b ha hb hab
    rw [hget ha, hget hb]
    have hpw := List.pairwise_iff_get.mp hSd
    rcases Nat.lt_or_ge a b with h | h
    · exact hpw ⟨a, by omega⟩ ⟨b, by omega⟩ (Fin.mk_lt_mk.mpr h)
    · exact (hpw ⟨b, by omega⟩ ⟨a, by omega⟩ (Fin.mk_lt_mk.mpr (by omega))).symm
  have hSb : ∀ {a : ℕ}, a < t → S.getD a 0 < bound := by
    intro a ha
    rw [hget ha]
    exact hSlt _ (List.get_mem S a (by omega))
  have hnodene : ∀ a b, a < t → b < t → a ≠ b →
      (((S.getD a 0 : ℤ) + 1 : ℤ) : ZMod p)
        ≠ (((S.getD b 0 : ℤ) + 1 : ℤ) : ZMod p) := by
    intro a b ha hb hab
    have h1 := hSne ha hb hab
    have h2 := hSb ha
    have h3 := hSb hb
    rcases Nat.lt_or_ge (S.getD a 0) (S.getD b 0) with h | h
    · exact intCast_ne_of_lt_of_bounds (by omega) (by omega)
    · exact (intCast_ne_of_lt_of_bounds (x := (S.getD b 0 : ℤ) + 1)
        (y := (S.getD a 0 : ℤ) + 1) (by omega) (by omega)).symm
  have hinj : ∀ a b, a < t → b < t → a ≠ b →
      (((sl.take t).map Prod.fst).getD a 0 : ZMod p)
        ≠ (((sl.take t).map Prod.fst).getD b 0 : ZMod p) := by
    intro a b ha hb hab
    rw [hgetfst ha, hgetfst hb]
    exact hnodene a b ha hb hab
  obtain ⟨r, hres, h0, hlt, hcast⟩ := lagrange_spec (p := p) sl n t ht htn hn
    (le_of_eq hslen.symm) hinj
  refine ⟨r, hres, h0, hlt, ?_⟩
  rw [hcast]
  refine Finset.sum_congr rfl fun a haa => ?_
  have ha := Finset.mem_range.mp haa
  rw [hgetsnd ha]
  congr 1
  refine lamW_congr (fun j hj => ?_) ha
  rw [hgetfst hj]

theorem subsetNode_inj {p t bound : ℕ} {S : List ℕ} (hS : S.length = t)
    (hSd : S.Pairwise (fun a b => a ≠ b)) (hSlt : ∀ i ∈ S, i < bound)
    (hbp : (bound : ℤ) ≤ (p : ℤ) - 1) :
    ∀ a b, a < t → b < t → a ≠ b →
      (((S.getD a 0 : ℤ) + 1 : ℤ) : ZMod p)
        ≠ (((S.getD b 0 : ℤ) + 1 : ℤ) : ZMod p) := by
  intro a b ha hb hab
  have hga : S.getD a 0 = S.get ⟨a, by omega⟩ := getD_eq_get S (by omega) 0
  have hgb : S.getD b 0 = S.get ⟨b, by omega⟩ := getD_eq_get S (by omega) 0
  have h1 : S.getD a 0 ≠ S.getD b 0 := by
    rw [hga, hgb]
    have hpw := List.pairwise_iff_get.mp hSd
    rcases Nat.lt_or_ge a b with h | h
    · exact hpw ⟨a, by omega⟩ ⟨b, by omega⟩ (Fin.mk_lt_mk.mpr h)
    · exact (hpw ⟨b, by omega⟩ ⟨a, by omega⟩ (Fin.mk_lt_mk.mpr (by omega))).symm
  have h2 : S.getD a 0 < bound := by
    rw [hga]
    exact hSlt _ (List.get_mem S a (by omega))
  have h3 : S.getD b 0 < bound := by
    rw [hgb]
    exact hSlt _ (List.get_mem S b (by omega))
  rcases Nat.lt_or_ge (S.getD a 0) (S.getD b 0) with h | h
  · exact intCast_ne_of_lt_of_bounds (by omega) (by omega)
  · exact (intCast_ne_of_lt_of_bounds (x := (S.getD b 0 : ℤ) + 1)
      (y := (S.getD a 0 : ℤ) + 1) (by omega) (by omega)).symm

/-! ## Claim C1: the column step of `Server.mix` preserves Lagrange values

`Server.mix` computes, for each race, pass `k`, column `j` and row `i`,
`xp = apply_permutation(pi, x)` and then
`y[m] = (xp[m] + fuzz_list[m]) % race_modulus`, i.e.
`y[m] = (x[pi(m)] + fuzz[m]) % M`; the fuzz values at each position form
a fresh `share(0, rows, threshold, ., M)` across the rows. -/

/-- **C1**: each output entry satisfies
`y_{i,j,k}[m] = (x_{i,j,k}[pi(m)] + fuzz_{i,j,k}[m]) mod M`, where the
per-position fuzz values across rows form a fresh Shamir sharing of `0`
with parameters `(rows, threshold)` mod `M`; consequently for every set
`S` of `threshold` rows with distinct indices, the Lagrange
reconstruction of the column's outputs at `m` equals the Lagrange
reconstruction of its inputs at `pi(m)`. -/
theorem C1_mix_column_preserves_lagrange {p : ℕ} [hp : Fact p.Prime]
    {nv : ℕ} (rows t : ℕ) (pi : Equiv.Perm (Fin nv))
    (x : ℕ → Fin nv → ℤ) (fdraws : Fin nv → List ℤ)
    (ht : 1 ≤ t) (htr : t ≤ rows) (hrp : (rows : ℤ) ≤ (p : ℤ) - 1)
    (hfd : ∀ m, (fdraws m).length = t)
    (S : List ℕ) (hSlen : S.length = t)
    (hSd : S.Pairwise (fun a b => a ≠ b)) (hSlt : ∀ i ∈ S, i < rows)
    (m : Fin nv) :
    (∀ (i : ℕ) (mm : Fin nv),
      mixStep rows t (p : ℤ) x pi fdraws i mm
        = pymod (x i (pi mm) + fuzzVal rows t (fdraws mm) (p : ℤ) i) (p : ℤ))
    ∧ lagrange (S.map fun (i : ℕ) =>
          ((i : ℤ) + 1, mixStep rows t (p : ℤ) x pi fdraws i m)) rows t (p : ℤ)
      = lagrange (S.map fun (i : ℕ) => ((i : ℤ) + 1, x i (pi m))) rows t (p : ℤ) := by
  refine ⟨fun i mm => rfl, ?_⟩
  obtain ⟨rOut, hresOut, h0Out, hltOut, hcastOut⟩ :=
    lagrange_rowSubset_spec (p := p) rows t rows S
      (fun i => mixStep rows t (p : ℤ) x pi fdraws i m)
      ht htr hrp hSlen hSd hSlt hrp
  obtain ⟨rIn, hresIn, h0In, hltIn, hcastIn⟩ :=
    lagrange_rowSubset_spec (p := p) rows t rows S
      (fun i => x i (pi m)) ht htr hrp hSlen hSd hSlt hrp
  have heq : rOut = rIn := by
    refine eq_of_cast_eq_of_range ⟨h0Out, hltOut⟩ ⟨h0In, hltIn⟩ ?_
    rw [hcastOut, hcastIn]
    have hterm : ∀ a ∈ Finset.range t,
        ((mixStep rows t (p : ℤ) x pi fdraws (S.getD a 0) m : ℤ) : ZMod p)
          * lamW p t (fun j => (((S.getD j 0 : ℤ) + 1 : ℤ) : ZMod p)) a
        = ((x (S.getD a 0) (pi m) : ℤ) : ZMod p)
            * lamW p t (fun j => (((S.getD j 0 : ℤ) + 1 : ℤ) : ZMod p)) a
          + ((fuzzVal rows t (fdraws m) (p : ℤ) (S.getD a 0) : ℤ) : ZMod p)
            * lamW p t (fun j => (((S.getD j 0 : ℤ) + 1 : ℤ) : ZMod p)) a := by
      intro a _
      rw [mixStep, applyPermutation, pymod_cast]
      push_cast
      ring
    rw [Finset.sum_congr rfl hterm, Finset.sum_add_distrib]
    have hSb : ∀ {a : ℕ}, a < t → S.getD a 0 < rows := by
      intro a ha
      rw [getD_eq_get S (by omega) 0]
      exact hSlt _ (List.get_mem S a (by omega))
    have hfsum : ∑ a ∈ Finset.range t,
        ((fuzzVal rows t (fdraws m) (p : ℤ) (S.getD a 0) : ℤ) : ZMod p)
          * lamW p t (fun j => (((S.getD j 0 : ℤ) + 1 : ℤ) : ZMod p)) a = 0 := by
      have hinj := subsetNode_inj (p := p) hSlen hSd hSlt hrp
      have hdeg : (ofCoeffList ((0 :: (fdraws m).tail).map
          (fun c => ((c : ℤ) : ZMod p)))).degree < (t : WithBot ℕ) := by
        refine lt_of_lt_of_le (ofCoeffList_degree_lt _) ?_
        rw [List.length_map, List.length_cons, List.length_tail, hfd m,
          Nat.cast_withBot, Nat.cast_withBot]
        exact_mod_cast (by omega : (t - 1) + 1 ≤ t)
      have hsum := sum_eval_mul_lamW
        (fun j => (((S.getD j 0 : ℤ) + 1 : ℤ) : ZMod p)) hinj _ hdeg
      have hco : ∀ a ∈ Finset.range t,
          ((fuzzVal rows t (fdraws m) (p : ℤ) (S.getD a 0) : ℤ) : ZMod p)
            * lamW p t (fun j => (((S.getD j 0 : ℤ) + 1 : ℤ) : ZMod p)) a
          = (ofCoeffList ((0 :: (fdraws m).tail).map
              (fun c => ((c : ℤ) : ZMod p)))).eval
                (((S.getD a 0 : ℤ) + 1 : ℤ) : ZMod p)
            * lamW p t (fun j => (((S.getD j 0 : ℤ) + 1 : ℤ) : ZMod p)) a := by
        intro a ha
        rw [fuzzVal_eq rows t _ (p : ℤ) (hSb (Finset.mem_range.mp ha)),
          polyEvalHorner_cast]
      rw [Finset.sum_congr rfl hco, hsum, ofCoeffList_eval_zero]
      simp
    rw [hfsum, add_zero]
  rw [hresOut, hresIn, heq]

/-! ## Claim C7: every `t`-subset of `share`'s output reconstructs -/

/-- **C7**: for every prime `M = p`, every `secret ∈ [0, M)`, every
`n, t` with `1 ≤ t ≤ n ≤ M - 1` (the code additionally requires
`n > 1`), and every draw sequence of the randomness source, every
sublist of exactly `t` pairs taken from `share(secret, n, t, ., M)`
(such a sublist automatically has distinct x-coordinates), passed to
`lagrange(., n, t, M)`, reconstructs to `secret`. -/
theorem C7_share_sublist_lagrange_reconstructs {p : ℕ} [hp : Fact p.Prime]
    (secret : ℤ) (n t : ℕ) (draws : List ℤ)
    (hsec : 0 ≤ secret ∧ secret < (p : ℤ))
    (ht : 1 ≤ t) (htn : t ≤ n) (hn1 : 1 < n) (hnp : (n : ℤ) ≤ (p : ℤ) - 1)
    (hdl : draws.length = t)
    (l : List (ℤ × ℤ)) (hsub : l.Sublist (share secret n t draws (p : ℤ)))
    (hlt : l.length = t) :
    lagrange l n t (p : ℤ) = .ok secret := by
  have htake : l.take t = l := by rw [← hlt, List.take_length]
  have hmemf : ∀ {a : ℕ} (ha : a < l.length), ∃ i : ℕ, i < n
      ∧ (l.get ⟨a, by omega⟩).1 = (i : ℤ) + 1
      ∧ (l.get ⟨a, by omega⟩).2
        = polyEvalHorner (secret :: draws.tail) ((i : ℤ) + 1) (p : ℤ) := by
    intro a ha
    exact mem_share (hsub.subset (List.get_mem l a (by omega)))
  have hpw : l.Pairwise (fun a b => a.1 < b.1) :=
    (share_fst_pairwise secret n t draws (p : ℤ)).sublist hsub
  have hgetfst : ∀ {a : ℕ} (ha : a < t),
      ((l.take t).map Prod.fst).getD a 0 = (l.get ⟨a, by omega⟩).1 := by
    intro a ha
    rw [htake]
    exact getD_map_get l Prod.fst (by omega) 0
  have hgetsnd : ∀ {a : ℕ} (ha : a < t),
      ((l.take t).map Prod.snd).getD a 0 = (l.get ⟨a, by omega⟩).2 := by
    intro a ha
    rw [htake]
    exact getD_map_get l Prod.snd (by omega) 0
  have hbounds : ∀ {a : ℕ} (ha : a < t),
      1 ≤ (l.get ⟨a, by omega⟩).1 ∧ (l.get ⟨a, by omega⟩).1 ≤ (n : ℤ) := by
    intro a ha
    obtain ⟨i, hi, h1, _⟩ := hmemf (a := a) (by omega)
    constructor
    · rw [h1]; omega
    · rw [h1]; omega
  have hinj : ∀ a b, a < t → b < t → a ≠ b →
      ((((l.take t).map Prod.fst).getD a 0 : ℤ) : ZMod p)
        ≠ (((l.take t).map Prod.fst).getD b 0 : ZMod p) := by
    intro a b ha hb hab
    rw [hgetfst ha, hgetfst hb]
    have h1a := hbounds ha
    have h1b := hbounds hb
    have hpw' := List.pairwise_iff_get.mp hpw
    rcases Nat.lt_or_ge a b with h | h
    · have := hpw' ⟨a, by omega⟩ ⟨b, by omega⟩ (Fin.mk_lt_mk.mpr h)
      exact intCast_ne_of_lt_of_bounds (by omega) (by omega)
    · have := hpw' ⟨b, by omega⟩ ⟨a, by omega⟩ (Fin.mk_lt_mk.mpr (by omega))
      exact (intCast_ne_of_lt_of_bounds (by omega) (by omega)).symm
  have hct : (secret :: draws.tail).length ≤ t := by
    rw [List.length_cons, List.length_tail, hdl]
    omega
  have hy : ∀ a, a < t →
      ((((l.take t).map Prod.snd).getD a 0 : ℤ) : ZMod p)
        = (ofCoeffList ((secret :: draws.tail).map
            (fun c => ((c : ℤ) : ZMod p)))).eval
              ((((l.take t).map Prod.fst).getD a 0 : ℤ) : ZMod p) := by
    intro a ha
    rw [hgetfst ha, hgetsnd ha]
    obtain ⟨i, hi, h1, h2⟩ := hmemf (a := a) (by omega)
    rw [h1, h2, polyEvalHorner_cast]
  obtain ⟨r, hres, h0, hltp, hcast⟩ := lagrange_reconstruct (p := p) l n t
    (secret :: draws.tail) ht htn hnp (by omega) hinj hct hy
  have : r = secret := by
    refine eq_of_cast_eq_of_range ⟨h0, hltp⟩ hsec ?_
    rw [hcast]
    rfl
  rw [hres, this]

/-- Witness for C7 at a concrete input: `p = 11`, `secret = 3`,
`n = 5`, `t = 3`, draws `[9, 8, 7]` (so
`share = [(1,7),(2,3),(3,2),(4,4),(5,9)]`), sublist rows `1, 3, 5`. -/
theorem C7_witness :
    lagrange [((1 : ℤ), (7 : ℤ)), ((3 : ℤ), (2 : ℤ)), ((5 : ℤ), (9 : ℤ))]
      5 3 ((11 : ℕ) : ℤ) = .ok 3 := by
  haveI : Fact (Nat.Prime 11) := ⟨by norm_num⟩
  exact C7_share_sublist_lagrange_reconstructs 3 5 3 [9, 8, 7]
    ⟨by decide, by decide⟩ (by decide) (by decide) (by decide) (by decide)
    rfl [(1, 7), (3, 2), (5, 9)] (by decide) rfl

/-- Witness for C1 at a concrete input: `p = 11`, two voters, `rows = 4`,
`threshold = 3`, identity column permutation, fuzz draws `[4, 5, 6]` at
every position, row subset `S = [0, 2, 3]`. -/
theorem C1_witness :
    (∀ (i : ℕ) (mm : Fin 2),
      mixStep 4 3 ((11 : ℕ) : ℤ) (fun i _ => (i : ℤ)) (Equiv.refl (Fin 2))
          (fun _ => [4, 5, 6]) i mm
        = pymod ((fun (i : ℕ) (_ : Fin 2) => (i : ℤ)) i ((Equiv.refl (Fin 2)) mm)
            + fuzzVal 4 3 ((fun (_ : Fin 2) => [(4 : ℤ), 5, 6]) mm) ((11 : ℕ) : ℤ) i)
            ((11 : ℕ) : ℤ))
    ∧ lagrange ([0, 2, 3].map fun (i : ℕ) =>
          ((i : ℤ) + 1, mixStep 4 3 ((11 : ℕ) : ℤ) (fun i _ => (i : ℤ))
            (Equiv.refl (Fin 2)) (fun _ => [4, 5, 6]) i 0)) 4 3 ((11 : ℕ) : ℤ)
      = lagrange ([0, 2, 3].map fun (i : ℕ) =>
          ((i : ℤ) + 1, (fun (i : ℕ) (_ : Fin 2) => (i : ℤ)) i
            ((Equiv.refl (Fin 2)) 0))) 4 3 ((11 : ℕ) : ℤ) := by
  haveI : Fact (Nat.Prime 11) := ⟨by norm_num⟩
  exact C1_mix_column_preserves_lagrange 4 3 (Equiv.refl (Fin 2))
    (fun i _ => (i : ℤ)) (fun _ => [4, 5, 6]) (by decide) (by decide)
    (by decide) (fun _ => rfl) [0, 2, 3] rfl (by decide) (by decide) 0

/-- Witness for C2 at a concrete input: `p = 11`, two voters, `rows = 4`,
`threshold = 3`, one column with the identity permutation and fuzz draws
`[5, 7, 1]`, input shares `x0 i = i`, voter u-halves `2`, output
u-halves `3`, position `p0`. -/
theorem C2_witness :
    ∃ tu tv,
      lagrange (enumShares 4 (fun i =>
          pymod ((fun (_ : ℕ) (_ : Fin 2) => (3 : ℤ)) i
              (tracePos [(Equiv.refl (Fin 2), fun _ => [5, 7, 1])] 0)
            - (fun (_ : ℕ) (_ : Fin 2) => (2 : ℤ)) i 0) ((11 : ℕ) : ℤ)))
        4 3 ((11 : ℕ) : ℤ) = .ok tu ∧
      lagrange (enumShares 4 (fun i =>
          pymod (pymod (mixPass 4 3 ((11 : ℕ) : ℤ)
                  [(Equiv.refl (Fin 2), fun _ => [5, 7, 1])]
                  (fun i _ => (i : ℤ)) i
                  (tracePos [(Equiv.refl (Fin 2), fun _ => [5, 7, 1])] 0)
                - (fun (_ : ℕ) (_ : Fin 2) => (3 : ℤ)) i
                  (tracePos [(Equiv.refl (Fin 2), fun _ => [5, 7, 1])] 0))
                ((11 : ℕ) : ℤ)
              - pymod ((fun (i : ℕ) (_ : Fin 2) => (i : ℤ)) i 0
                - (fun (_ : ℕ) (_ : Fin 2) => (2 : ℤ)) i 0) ((11 : ℕ) : ℤ))
            ((11 : ℕ) : ℤ)))
        4 3 ((11 : ℕ) : ℤ) = .ok tv ∧
      pymod (tu + tv) ((11 : ℕ) : ℤ) = 0 := by
  haveI : Fact (Nat.Prime 11) := ⟨by norm_num⟩
  exact C2_t_values_reconstruct_to_t_neg_t 4 3
    [(Equiv.refl (Fin 2), fun _ => [5, 7, 1])] (by decide) (by decide)
    (by decide)
    (by
      intro c hc m
      rw [List.mem_singleton] at hc
      subst hc
      rfl)
    (fun i _ => (i : ℤ)) (fun _ _ => (2 : ℤ)) (fun _ _ => (3 : ℤ)) 0

theorem insertSorted_perm (x : List ℕ) (l : List (List ℕ)) :
    (insertSorted x l).Perm (x :: l) := by
  induction l with
  | nil => exact List.Perm.refl _
  | cons y ys ih =>
      rw [insertSorted]
      by_cases h : lexLe x y
      · rw [if_pos h]
      · rw [if_neg h]
        exact (ih.cons y).trans (List.Perm.swap x y ys)

/-- Sorting permutes: equal sorted lists mean equal multisets. -/
theorem sortB_perm (l : List (List ℕ)) : (sortB l).Perm l := by
  induction l with
  | nil => exact List.Perm.refl _
  | cons x xs ih =>
      rw [sortB]
      exact (insertSorted_perm x (sortB xs)).trans (ih.cons x)

theorem mapE_mem {α β : Type} (f : α → Except String β) :
    ∀ {l : List α} {bs : List β}, mapE f l = .ok bs →
      ∀ a ∈ l, ∃ b ∈ bs, f a = .ok b := by
  intro l
  induction l with
  | nil =>
      intro bs _ a ha
      exact absurd ha (List.not_mem_nil a)
  | cons x xs ih =>
      intro bs hok a ha
      rw [mapE] at hok
      cases hfx : f x with
      | error e => rw [hfx] at hok; exact absurd hok (by simp)
      | ok b =>
          rw [hfx] at hok
          cases hrest : mapE f xs with
          | error e => rw [hrest] at hok; exact absurd hok (by simp)
          | ok bs' =>
              rw [hrest] at hok
              have hbs : bs = b :: bs' := by
                cases hok
                rfl
              subst hbs
              rcases List.mem_cons.mp ha with h | h
              · exact ⟨b, List.mem_cons_self b bs', h ▸ hfx⟩
              · obtain ⟨b', hb', hfb'⟩ := ih hrest a h
                exact ⟨b', List.mem_cons_of_mem b hb', hfb'⟩

theorem mapE_cons_ok {α β : Type} (f : α → Except String β) {x : α}
    {xs : List α} {bs : List β} (h : mapE f (x :: xs) = .ok bs) :
    ∃ b bs', f x = .ok b ∧ mapE f xs = .ok bs' ∧ bs = b :: bs' := by
  rw [mapE] at h
  cases hfx : f x with
  | error e => rw [hfx] at h; exact absurd h (by simp)
  | ok b =>
      rw [hfx] at h
      cases hrest : mapE f xs with
      | error e => rw [hrest] at h; exact absurd h (by simp)
      | ok bs' =>
          rw [hrest] at h
          refine ⟨b, bs', rfl, rfl, ?_⟩
          cases h
          rfl

/-- **C5 (amended)**: `compute_tally` reconstructs each position with
`lagrange(., n_voters, threshold, M)` (the `n` parameter is `n_voters`,
not `rows` as the claim states — see `reconstructChoice` and the
counterexample), decodes to choice strings, asserts every pass yields
the same multiset of choice strings as the first pass, and the per-race
tally counts these strings (zero-seeded at the non-write-in choices). -/
theorem C5_compute_tally_spec {α β : Type} (kList : List α) (pList : List β)
    (y : α → ℕ → β → ℤ) (rows nV t : ℕ) (M : ℤ) (choices : List (List ℕ))
    (tal : List (List ℕ × ℕ))
    (h : computeTallyRace kList pList y rows nV t M choices = .ok tal) :
    ∃ k0 ks strs0, kList = k0 :: ks
      ∧ passChoiceBytes pList (y k0) rows nV t M choices = .ok strs0
      ∧ (∀ k ∈ kList, ∃ strsK,
          passChoiceBytes pList (y k) rows nV t M choices = .ok strsK
          ∧ strsK.Perm strs0)
      ∧ tal = countTally choices (sortB strs0) := by
  rw [computeTallyRace] at h
  cases hm : mapE (fun k =>
      match passChoiceBytes pList (y k) rows nV t M choices with
      | .error e => .error e
      | .ok strs => .ok (sortB strs)) kList with
  | error e => rw [hm] at h; exact absurd h (by simp)
  | ok ls =>
      rw [hm] at h
      cases hls : ls with
      | nil => rw [hls] at h; exact absurd h (by simp)
      | cons first rest =>
          rw [hls] at h
          have h' : (if (rest.all fun l => l == first) = true
              then Except.ok (countTally choices first)
              else (Except.error
                "compute_tally: assert choice_str_list == last_choice_str_list"
                : Except String (List (List ℕ × ℕ))))
              = Except.ok tal := h
          by_cases hall : rest.all (fun l => l == first)
          · rw [if_pos hall] at h'
            have htal : tal = countTally choices first := by
              cases h'
              rfl
            cases hkl : kList with
            | nil =>
                rw [hkl] at hm
                rw [mapE] at hm
                cases hm
                exact absurd hls (by simp)
            | cons k0 ks =>
                rw [hkl] at hm
                obtain ⟨b, bs', hgk0, hgrest, hbs⟩ := mapE_cons_ok _ hm
                have hfirst : first = b := by
                  rw [hls] at hbs
                  cases hbs
                  rfl
                cases hp0 : passChoiceBytes pList (y k0) rows nV t M choices with
                | error e => rw [hp0] at hgk0; exact absurd hgk0 (by simp)
                | ok strs0 =>
                    rw [hp0] at hgk0
                    have hb : b = sortB strs0 := by
                      cases hgk0
                      rfl
                    refine ⟨k0, ks, strs0, rfl, hp0, ?_, ?_⟩
                    · intro k hk
                      obtain ⟨b', hb', hgk⟩ := mapE_mem _ hm k hk
                      have hb'first : b' = first := by
                        rw [hls] at hb'
                        rcases List.mem_cons.mp hb' with hh | hh
                        · exact hh
                        · have := List.all_eq_true.mp hall b' hh
                          exact eq_of_beq this
                      cases hpk : passChoiceBytes pList (y k) rows nV t M choices with
                      | error e => rw [hpk] at hgk; exact absurd hgk (by simp)
                      | ok strsK =>
                          rw [hpk] at hgk
                          have hbk : b' = sortB strsK := by
                            cases hgk
                            rfl
                          refine ⟨strsK, rfl, ?_⟩
                          have hsort : sortB strsK = sortB strs0 := by
                            rw [← hbk, hb'first, hfirst, hb]
                          have hh1 := (sortB_perm strsK).symm
                          rw [hsort] at hh1
                          exact hh1.trans (sortB_perm strs0)
                    · rw [htal, hfirst, hb]
          · rw [if_neg hall] at h'
            exact absurd h' (by simp)

/-- **C5 counterexample**: the claim says `compute_tally` reconstructs
with `lagrange(., rows, threshold, M)`, but the source passes
`election.n_voters` as `n`.  With `rows = 4`, `threshold = 3` but only
`n_voters = 2`, the code's call fails `lagrange`'s `assert t <= n`
while the claim's version succeeds (reconstructing `6`), so the two
disagree. -/
theorem C5_counterexample :
    reconstructChoice 4 2 3 (11 : ℤ) (fun row => [(9 : ℤ), 5, 5, 9].getD row 0)
      = .error "lagrange: assert parameters"
    ∧ reconstructChoice_claimed 4 2 3 (11 : ℤ)
        (fun row => [(9 : ℤ), 5, 5, 9].getD row 0) = .ok 6
    ∧ reconstructChoice 4 2 3 (11 : ℤ) (fun row => [(9 : ℤ), 5, 5, 9].getD row 0)
      ≠ reconstructChoice_claimed 4 2 3 (11 : ℤ)
          (fun row => [(9 : ℤ), 5, 5, 9].getD row 0) := by
  refine ⟨by decide, by decide, ?_⟩
  intro h
  rw [(by decide : reconstructChoice 4 2 3 (11 : ℤ)
      (fun row => [(9 : ℤ), 5, 5, 9].getD row 0)
      = .error "lagrange: assert parameters")] at h
  rw [(by decide : reconstructChoice_claimed 4 2 3 (11 : ℤ)
      (fun row => [(9 : ℤ), 5, 5, 9].getD row 0) = .ok 6)] at h
  exact absurd h (by simp)

/-- Witness for the amended C5 at a concrete input: two passes, two
positions, `rows = 4`, `n_voters = threshold = 3`, `M = 11`, shares
`[9, 5, 5, 9]` of the choice integer `6`, ballot choices `[[6]]`: the
tally is `{[6] : 2}`. -/
theorem C5_witness :
    ∃ k0 ks strs0, ([0, 1] : List ℕ) = k0 :: ks
      ∧ passChoiceBytes [0, 1]
          ((fun (_ : ℕ) (row : ℕ) (_ : ℕ) => [(9 : ℤ), 5, 5, 9].getD row 0) k0)
          4 3 3 (11 : ℤ) [[6]] = .ok strs0
      ∧ (∀ k ∈ ([0, 1] : List ℕ), ∃ strsK, passChoiceBytes [0, 1]
          ((fun (_ : ℕ) (row : ℕ) (_ : ℕ) => [(9 : ℤ), 5, 5, 9].getD row 0) k)
          4 3 3 (11 : ℤ) [[6]] = .ok strsK ∧ strsK.Perm strs0)
      ∧ [([6], 2)] = countTally [[6]] (sortB strs0) :=
  C5_compute_tally_spec [0, 1] [0, 1]
    (fun _ row _ => [(9 : ℤ), 5, 5, 9].getD row 0) 4 3 3 (11 : ℤ) [[6]]
    [([6], 2)] (by decide)

theorem bytes2hex_length (x : List ℕ) : (bytes2hex x).length = 2 * x.length := by
  induction x with
  | nil => rfl
  | cons c rest ih =>
      rw [bytes2hex, List.length_cons, List.length_cons, ih, List.length_cons]
      ring

/-- **C6 refuted**: `com` requires a key of `SECPARAM_SYMMETRIC//6 + 2 =
44` characters (a base64-encoded 32-byte key), but `Voter.cast_votes`
builds `ru`/`rv` with `bytes2hex`, which yields `2 * 32 = 64`
characters, so `com`'s length assertion fails on every commitment the
voter computes. -/
theorem C6_voter_commit_key_fails_com_assert :
    SECPARAM_SYMMETRIC / 6 + 2 = 44
    ∧ (∀ draw : List ℕ, (voterCommitKey draw).length = 2 * draw.length)
    ∧ (voterCommitKey (List.replicate 32 0)).length = 64
    ∧ comKeyLenOk (voterCommitKey (List.replicate 32 0)) = false := by
  refine ⟨rfl, fun draw => bytes2hex_length draw, by decide, by decide⟩

/-- **C9**: the ballot id is the 64-hex-character encoding of one
32-byte draw truncated to `ballot_id_len` characters; the assertion
`len(ballot_id) == ballot_id_len` holds exactly when
`ballot_id_len ≤ 64`, while the election parameter check accepts any
positive `ballot_id_len` (in particular any value above 64, for which
every cast vote fails the assertion). -/
theorem C9_ballot_id_length_assert {draw : List ℕ} (hdraw : draw.length = 32)
    (len : ℕ) :
    (ballotIdAssertOk draw len = true ↔ len ≤ 64)
    ∧ (electionBallotIdLenOk len = true ↔ 0 < len) := by
  constructor
  · rw [ballotIdAssertOk, ballotId]
    rw [show ((bytes2hex draw).take len).length = min len 64 by
      rw [List.length_take, bytes2hex_length, hdraw]]
    rw [beq_iff_eq]
    omega
  · rw [electionBallotIdLenOk]
    simp

/-- Witness for C9 at a concrete input: the all-zero 32-byte draw; with
`ballot_id_len = 65` the election check accepts but the cast-vote
assertion fails (`¬ 65 ≤ 64`), and with `ballot_id_len = 64` both hold. -/
theorem C9_witness :
    ((ballotIdAssertOk (List.replicate 32 0) 65 = true ↔ 65 ≤ 64)
      ∧ (electionBallotIdLenOk 65 = true ↔ 0 < 65))
    ∧ ((ballotIdAssertOk (List.replicate 32 0) 64 = true ↔ 64 ≤ 64)
      ∧ (electionBallotIdLenOk 64 = true ↔ 0 < 64)) :=
  ⟨C9_ballot_id_length_assert (by decide) 65,
   C9_ballot_id_length_assert (by decide) 64⟩

/-- **C10**: the board is append-only — a successful `post` appends
exactly one entry (the existing entries are a prefix of the new board,
unmodified) and leaves the closed flag unchanged; once `close` has set
the closed flag, every subsequent `post` fails its assertion (returning
no new state, so the board is unchanged). -/
theorem C10_sbb_append_only_and_closed :
    (∀ (sbb : SBBState) (h : String) (pl : List (String × JVal))
        (ts : Bool) (now : String) (sbb' : SBBState),
      sbb.post h pl ts now = .ok sbb' →
      sbb'.board = sbb.board
          ++ [(h, if ts then pl ++ [("time_iso8601", JVal.s now)] else pl)]
        ∧ sbb'.closed = sbb.closed)
    ∧ (∀ (sbb : SBBState) (h : String) (pl : List (String × JVal))
        (ts : Bool) (now : String), sbb.closed = true →
      sbb.post h pl ts now = .error "post: assert not self.closed")
    ∧ (∀ (sbb : SBBState) (now : String) (sbb' : SBBState),
      sbb.close now = .ok sbb' → sbb'.closed = true) := by
  refine ⟨?_, ?_, ?_⟩
  · intro sbb h pl ts now sbb' hok
    rw [SBBState.post] at hok
    by_cases hc : sbb.closed
    · rw [if_pos hc] at hok
      exact absurd hok (by simp)
    · rw [if_neg hc] at hok
      by_cases ht : pl.any (fun f => f.1 == "time" || f.1 == "time_str")
      · rw [if_pos ht] at hok
        exact absurd hok (by simp)
      · rw [if_neg ht] at hok
        cases hok
        exact ⟨rfl, rfl⟩
  · intro sbb h pl ts now hc
    rw [SBBState.post, if_pos hc]
  · intro sbb now sbb' hok
    rw [SBBState.close] at hok
    cases hp : sbb.post "sbb:close" [] true now with
    | error e => rw [hp] at hok; exact absurd hok (by simp)
    | ok s =>
        rw [hp] at hok
        cases hok
        rfl

/-- Witness for C10 at concrete states: posting on an open board appends
the one entry; posting on a closed board fails; `close` sets the flag. -/
theorem C10_witness :
    (SBBState.mk [("a", [])] false).post "b" [("k", JVal.n 1)] false "T"
      = .ok (SBBState.mk [("a", []), ("b", [("k", JVal.n 1)])] false)
    ∧ (SBBState.mk [] true).post "x" [] false "T"
      = .error "post: assert not self.closed" :=
  ⟨by decide, C10_sbb_append_only_and_closed.2.1 (SBBState.mk [] true)
      "x" [] false "T" rfl⟩

/-- **C8 counterexample**: the same single post (identical parameters
and seeds), performed under two clocks one second apart, yields boards
that serialize to different bytes — the transcript is not a function of
parameters and seeds alone. -/
theorem C8_counterexample :
    runPosts (fun _ => "2014-06-14T00:00:00")
        (SBBState.mk [] false)
        [("sbb:open", [("election_id", JVal.s "E1")], true)] 0
      = .ok (SBBState.mk [("sbb:open", [("election_id", JVal.s "E1"),
          ("time_iso8601", JVal.s "2014-06-14T00:00:00")])] false)
    ∧ runPosts (fun _ => "2014-06-14T00:00:01")
        (SBBState.mk [] false)
        [("sbb:open", [("election_id", JVal.s "E1")], true)] 0
      = .ok (SBBState.mk [("sbb:open", [("election_id", JVal.s "E1"),
          ("time_iso8601", JVal.s "2014-06-14T00:00:01")])] false)
    ∧ serializeBoard [("sbb:open", [("election_id", JVal.s "E1"),
          ("time_iso8601", JVal.s "2014-06-14T00:00:00")])]
      ≠ serializeBoard [("sbb:open", [("election_id", JVal.s "E1"),
          ("time_iso8601", JVal.s "2014-06-14T00:00:01")])] := by
  refine ⟨by decide, by decide, by decide⟩

/-- **C8 (amended)**: two runs of the same post sequence — as produced
by identical parameters and identical named-source seeds — are
byte-identical *after deleting the `time_iso8601` timestamp fields*,
whatever clock readings the two runs observe (and hence byte-identical
outright when the clock readings also coincide). -/
theorem C8_runs_identical_modulo_timestamps
    (posts : List (String × List (String × JVal) × Bool)) :
    ∀ (sbb1 sbb2 : SBBState), sbb1.closed = sbb2.closed →
      stripTime sbb1.board = stripTime sbb2.board →
    ∀ (c1 c2 : ℕ → String) (i1 i2 : ℕ) (s1 s2 : SBBState),
      runPosts c1 sbb1 posts i1 = .ok s1 →
      runPosts c2 sbb2 posts i2 = .ok s2 →
      stripTime s1.board = stripTime s2.board
      ∧ serializeBoard (stripTime s1.board) = serializeBoard (stripTime s2.board) := by
  induction posts with
  | nil =>
      intro sbb1 sbb2 _ hb c1 c2 i1 i2 s1 s2 h1 h2
      rw [runPosts] at h1 h2
      cases h1
      cases h2
      exact ⟨hb, by rw [hb]⟩
  | cons post rest ih =>
      intro sbb1 sbb2 hc hb c1 c2 i1 i2 s1 s2 h1 h2
      obtain ⟨h, pl, ts⟩ := post
      rw [runPosts] at h1 h2
      cases hp1 : sbb1.post h pl ts (c1 i1) with
      | error e => rw [hp1] at h1; exact absurd h1 (by simp)
      | ok s1' =>
          rw [hp1] at h1
          cases hp2 : sbb2.post h pl ts (c2 i2) with
          | error e => rw [hp2] at h2; exact absurd h2 (by simp)
          | ok s2' =>
              rw [hp2] at h2
              rw [SBBState.post] at hp1 hp2
              by_cases hcl : sbb1.closed
              · rw [if_pos hcl] at hp1
                exact absurd hp1 (by simp)
              · rw [if_neg hcl] at hp1
                rw [if_neg (hc ▸ hcl)] at hp2
                by_cases ht : pl.any (fun f => f.1 == "time" || f.1 == "time_str")
                · rw [if_pos ht] at hp1
                  exact absurd hp1 (by simp)
                · rw [if_neg ht] at hp1 hp2
                  cases hp1
                  cases hp2
                  refine ih _ _ (by simpa using hc) ?_ c1 c2 (i1 + 1) (i2 + 1)
                    s1 s2 h1 h2
                  rw [stripTime, stripTime, List.map_append, List.map_append]
                  rw [stripTime, stripTime] at hb
                  rw [hb]
                  congr 1
                  cases ts
                  · rfl
                  · simp only [List.map_cons, List.map_nil, if_pos]
                    rw [List.filter_append, List.filter_append]
                    rfl

/-- Witness for the amended C8 at a concrete input: one timestamped post
run under two different clocks; the stripped transcripts coincide. -/
theorem C8_witness :
    stripTime (SBBState.mk [("sbb:open", [("election_id", JVal.s "E1"),
        ("time_iso8601", JVal.s "2014-06-14T00:00:00")])] false).board
      = stripTime (SBBState.mk [("sbb:open", [("election_id", JVal.s "E1"),
        ("time_iso8601", JVal.s "2014-06-14T00:00:01")])] false).board
    ∧ serializeBoard (stripTime (SBBState.mk [("sbb:open",
        [("election_id", JVal.s "E1"),
         ("time_iso8601", JVal.s "2014-06-14T00:00:00")])] false).board)
      = serializeBoard (stripTime (SBBState.mk [("sbb:open",
        [("election_id", JVal.s "E1"),
         ("time_iso8601", JVal.s "2014-06-14T00:00:01")])] false).board) :=
  C8_runs_identical_modulo_timestamps
    [("sbb:open", [("election_id", JVal.s "E1")], true)]
    (SBBState.mk [] false) (SBBState.mk [] false) rfl rfl
    (fun _ => "2014-06-14T00:00:00") (fun _ => "2014-06-14T00:00:01") 0 0
    _ _ (by decide) (by decide)

/-- **C4 refuted**: `check_headers` accepts a transcript exactly when
its header list equals `HEADER_LIST` (that half of the claim holds),
but the header sequence a run of `Election.run_election` would post is
not `HEADER_LIST` — the four proof headers differ and the three
`proof:input_consistency:*` entries are never posted — so the verifier
rejects every transcript this prover produces. -/
theorem C4_header_list_mismatch :
    (∀ (sbb : List (String × List (String × JVal))),
      check_headers sbb = true ↔ sbb.map Prod.fst = HEADER_LIST)
    ∧ runElectionHeaders ≠ HEADER_LIST
    ∧ check_headers (runElectionHeaders.map
        (fun h => (h, ([] : List (String × JVal))))) = false := by
  refine ⟨?_, by decide, by decide⟩
  intro sbb
  rw [check_headers, Bool.and_eq_true, beq_iff_eq]
  constructor
  · exact fun h => h.2
  · intro h
    refine ⟨?_, h⟩
    rw [List.all_eq_true]
    intro item hitem
    have hmem : item.1 ∈ HEADER_LIST := by
      rw [← h]
      exact List.mem_map_of_mem Prod.fst hitem
    have hne : item.1 ≠ "" := by
      intro he
      rw [he] at hmem
      exact absurd hmem (by decide)
    simpa using hne

/-- **C3 refuted**: on the same draw stream (the source seeded with the
same transcript-prefix hash), the verifier's re-derivation agrees with
the prover's on `icl`/`opl` and on every drawn left/right value — but
the re-derived `leftright` structure (a per-race dict keyed by `p_list`)
is **not** equal to the structure the prover posted (a per-race list),
and the verifier's own shape check rejects the posted value.  Shown at
the concrete input `n_reps = 2`, one race `"taxes"`, two voters, stream
`i ↦ i`; the cut agreement holds for every stream (`n_reps = 4` shown,
where `2 * (n_reps // 2) = n_reps` definitionally). -/
theorem C3_challenge_rederivation_mismatch :
    (∀ s : ℕ → ℕ, verifierCut 4 s 0 = proverCut 4 s 0)
    ∧ verifierCut 2 (fun i => i) 0 = proverCut 2 (fun i => i) 0
    ∧ proverCut 2 (fun i => i) 0 = (['B'], ['A'])
    ∧ (verifierLeftright ["taxes"] 2 (fun i => i) 1).map
        (fun r => (r.1, r.2.map Prod.snd))
      = proverLeftright ["taxes"] 2 (fun i => i) 1
    ∧ proverLeftright ["taxes"] 2 (fun i => i) 1 = [("taxes", ["left", "right"])]
    ∧ checkLeftrightShape (verifierLeftrightJ ["taxes"] 2 (fun i => i) 1)
        ["taxes"] (pList 2) = true
    ∧ checkLeftrightShape (proverLeftrightJ ["taxes"] 2 (fun i => i) 1)
        ["taxes"] (pList 2) = false
    ∧ proverLeftrightJ ["taxes"] 2 (fun i => i) 1
      ≠ verifierLeftrightJ ["taxes"] 2 (fun i => i) 1 := by
  refine ⟨fun s => rfl, by decide, by decide, by decide, by decide, by decide,
    by decide, ?_⟩
  intro h
  have hP : proverLeftrightJ ["taxes"] 2 (fun i => i) 1
      = .obj [("taxes", .arr [.s "left", .s "right"])] := rfl
  have hV : verifierLeftrightJ ["taxes"] 2 (fun i => i) 1
      = .obj [("taxes", .obj [("p0", .s "left"), ("p1", .s "right")])] := rfl
  rw [hP, hV] at h
  simp at h

end SV
